import Mathlib

/-!
Shallow embedding of `src/software/healthcheck.c` (the Infinite Noise Multiplier
health checker) and proofs about it.

Modelling conventions:
* The C file's global variables become the fields of the structure `InmState`;
  every function takes the state explicitly and returns the updated state.
* C `double` values are modelled as exact rationals (every finite IEEE double is
  a rational); `uint32_t`/`uint64_t` counters are modelled as `ℕ`.  None of the
  32-bit counters can overflow, because the code halves them at small ceilings
  (this is proved below), and the 64-bit total-bit counter is incremented once
  per call, so wrap-around is unreachable in any feasible execution.
* `inmExpectedEntropyPerBit = log(K)/log(2.0)` is transcendental; the value the
  C library computes is passed to `inmHealthCheckStart` as the extra `expected`
  argument (the stored double is itself a rational).
* The `while(inmCurrentProbability <= 0.5)` loop of `inmHealthCheckAddBit` is
  modelled by `creditLoopGo` with an explicit iteration bound `p.den + 1`; the
  bound is proved sufficient (`creditLoopGo_gt_half`), so for every positive
  probability the model agrees with the loop.  For `p ≤ 0` the C loop would not
  terminate; such states are unreachable (the probability stays in (1/2, 1]).
* `exit(1)` on the run-length anomaly is modelled by returning `none`;
  returning `true` is modelled by `some` of the updated state.  `calloc` is
  modelled as always succeeding; debug printing does not change the state.
-/

/-- C macro `INM_MIN_DATA` (healthcheck.c line 29). -/
def INM_MIN_DATA : ℕ := 80000

/-- C macro `INM_MIN_SAMPLE_SIZE` (line 30). -/
def INM_MIN_SAMPLE_SIZE : ℕ := 100

/-- C macro `INM_ACCURACY` (line 31); the double literal 1.02 read exactly. -/
def INM_ACCURACY : ℚ := 1.02

/-- C macro `INM_MAX_SEQUENCE` (line 32). -/
def INM_MAX_SEQUENCE : ℕ := 20

/-- C macro `INM_MAX_COUNT = 1 << 14` (line 33). -/
def INM_MAX_COUNT : ℕ := 1 <<< 14

/-- C macro `INM_MAX_ENTROPY` (line 35). -/
def INM_MAX_ENTROPY : ℕ := 1600

/-- The global state of healthcheck.c (lines 37-54), one field per global.
The four occurrence tables are total functions on `ℕ`; the C arrays only use
indices below `2^inmN` and the code never reads or writes other indices. -/
structure InmState where
  inmN : ℕ
  inmPrevBits : ℕ
  inmNumBitsSampled : ℕ
  inmOnesEven : ℕ → ℕ
  inmZerosEven : ℕ → ℕ
  inmOnesOdd : ℕ → ℕ
  inmZerosOdd : ℕ → ℕ
  inmK : ℚ
  inmExpectedEntropyPerBit : ℚ
  inmNumBitsOfEntropy : ℕ
  inmCurrentProbability : ℚ
  inmTotalBits : ℕ
  inmPrevBit : Bool
  inmEntropyLevel : ℕ
  inmNumSequentialZeros : ℕ
  inmNumSequentialOnes : ℕ
  inmTotalOnes : ℕ
  inmTotalZeros : ℕ
  inmEvenMisfires : ℕ
  inmOddMisfires : ℕ
  inmPrevEven : Bool
  inmPrevOdd : Bool
  inmDebug : Bool

/-- Models `inmHealthCheckEstimateEntropyPerBit` (lines 262-264). -/
def inmHealthCheckEstimateEntropyPerBit (s : InmState) : ℚ :=
  (s.inmNumBitsOfEntropy : ℚ) / (s.inmNumBitsSampled : ℚ)

/-- The body of `inmHealthCheckOkToUseData` (lines 267-271) over the three
counters and the expected entropy it reads; inside `inmHealthCheckAddBit` the
check runs mid-update, so the arguments are spelled out. -/
def okOf (totalBits numBitsSampled numBitsOfEntropy : ℕ) (expected : ℚ) : Bool :=
  let entropy : ℚ := (numBitsOfEntropy : ℚ) / (numBitsSampled : ℚ)
  decide (INM_MIN_DATA ≤ totalBits) && decide (expected ≤ entropy * INM_ACCURACY) &&
    decide (entropy / INM_ACCURACY ≤ expected)

/-- Models `inmHealthCheckOkToUseData` (lines 267-271). -/
def inmHealthCheckOkToUseData (s : InmState) : Bool :=
  okOf s.inmTotalBits s.inmNumBitsSampled s.inmNumBitsOfEntropy s.inmExpectedEntropyPerBit

/-- Models `bit = even ? evenBit : oddBit` (lines 150-160). -/
def selectedBit (evenBit oddBit even : Bool) : Bool :=
  if even then evenBit else oddBit

/-- The context-window update (lines 172-175): shift the previous bit into the
window and mask to `inmN` bits. -/
def nextPrevBits (s : InmState) : ℕ :=
  ((s.inmPrevBits <<< 1) &&& ((1 <<< s.inmN) - 1)) ||| (if s.inmPrevBit then 1 else 0)

/-- Whether the run-length guard (lines 177-195) calls `exit(1)` on this call:
the counter for the observed bit, once incremented, exceeds `INM_MAX_SEQUENCE`,
and at least `INM_MIN_SAMPLE_SIZE + 1` bits have been sampled. -/
def runFails (numBitsSampled : ℕ) (bit : Bool) (seqOnes seqZeros : ℕ) : Bool :=
  decide (INM_MIN_SAMPLE_SIZE < numBitsSampled) &&
    (if bit then decide (INM_MAX_SEQUENCE < seqOnes + 1)
     else decide (INM_MAX_SEQUENCE < seqZeros + 1))

/-- The counter updates of the run-length guard (lines 177-195), returning
`(totalOnes, totalZeros, numSequentialOnes, numSequentialZeros)`. -/
def runStats (numBitsSampled : ℕ) (bit : Bool) (totalOnes totalZeros seqOnes seqZeros : ℕ) :
    ℕ × ℕ × ℕ × ℕ :=
  if INM_MIN_SAMPLE_SIZE < numBitsSampled then
    if bit then (totalOnes + 1, totalZeros, seqOnes + 1, 0)
    else (totalOnes, totalZeros + 1, 0, seqZeros + 1)
  else (totalOnes, totalZeros, seqOnes, seqZeros)

/-- The probability update (lines 196-213): multiply the running probability by
count/total for the observed bit, but only when that count is nonzero. -/
def probAfterLookup (s : InmState) (evenBit oddBit even : Bool) : ℚ :=
  let bit := selectedBit evenBit oddBit even
  let idx := nextPrevBits s
  let zeros := if even then s.inmZerosEven idx else s.inmZerosOdd idx
  let ones := if even then s.inmOnesEven idx else s.inmOnesOdd idx
  let total := zeros + ones
  if bit then
    if ones ≠ 0 then s.inmCurrentProbability * ((ones : ℚ) / (total : ℚ))
    else s.inmCurrentProbability
  else
    if zeros ≠ 0 then s.inmCurrentProbability * ((zeros : ℚ) / (total : ℚ))
    else s.inmCurrentProbability

/-- The occurrence-table count for the observed bit at the current context
index (lines 196-203 and 205/210): the count whose zeroness suppresses the
probability update. -/
def matchingCount (s : InmState) (evenBit oddBit even : Bool) : ℕ :=
  let idx := nextPrevBits s
  if selectedBit evenBit oddBit even then
    (if even then s.inmOnesEven idx else s.inmOnesOdd idx)
  else
    (if even then s.inmZerosEven idx else s.inmZerosOdd idx)

/-- One pass of the entropy-credit loop body per unit of fuel, mirroring
`while(inmCurrentProbability <= 0.5)` (lines 214-220): double the probability,
credit an entropy unit, and raise the entropy level if `inmHealthCheckOkToUseData()`
(reading the already-incremented total-bit counter, the not-yet-incremented
sampled-bit counter and the just-incremented entropy-unit counter) holds and the
level is below `INM_MAX_ENTROPY`.  Returns (probability, entropy units, level). -/
def creditLoopGo (totalBits numBitsSampled : ℕ) (expected : ℚ) :
    ℕ → ℚ → ℕ → ℕ → ℚ × ℕ × ℕ
  | 0, p, nboe, level => (p, nboe, level)
  | fuel + 1, p, nboe, level =>
    if p ≤ 1 / 2 then
      creditLoopGo totalBits numBitsSampled expected fuel (p * 2) (nboe + 1)
        (if okOf totalBits numBitsSampled (nboe + 1) expected &&
            decide (level < INM_MAX_ENTROPY)
         then level + 1 else level)
    else (p, nboe, level)

/-- The entropy-credit loop (lines 214-220) with fuel `p.den + 1`, an upper
bound on the number of iterations the C loop performs for a positive
probability (proved sufficient in `creditLoopGo_gt_half` below). -/
def creditLoop (totalBits numBitsSampled : ℕ) (expected : ℚ) (p : ℚ) (nboe level : ℕ) :
    ℚ × ℕ × ℕ :=
  creditLoopGo totalBits numBitsSampled expected (p.den + 1) p nboe level

/-- The entropy-level gate of lines 217-219 applied once per credited entropy
unit, in crediting order: starting from the unit count `nboe`, fold over the
next `k` units, raising the level by one at a unit exactly when
`inmHealthCheckOkToUseData` holds at that moment (for that unit count, the
already-incremented total-bit counter and the not-yet-incremented sampled-bit
counter) and the level is still below `INM_MAX_ENTROPY`.  The entropy-credit
loop's level output is proved to equal this fold over exactly the units it
credits (`creditLoopGo_level_eq_fold`), which pins every single level
increment to a credited unit at which the verdict held. -/
def levelFold (totalBits numBitsSampled : ℕ) (expected : ℚ) : ℕ → ℕ → ℕ → ℕ
  | _, 0, level => level
  | nboe, k + 1, level =>
    levelFold totalBits numBitsSampled expected (nboe + 1) k
      (if okOf totalBits numBitsSampled (nboe + 1) expected &&
          decide (level < INM_MAX_ENTROPY)
       then level + 1 else level)

/-- The per-table effect of `scaleStats` (lines 116-124): halve every cell with
index below `1 << inmN`; other indices are untouched by the C loop. -/
def scaleTable (N : ℕ) (t : ℕ → ℕ) : ℕ → ℕ :=
  fun i => if i < 1 <<< N then t i / 2 else t i

/-- The table increment and conditional `scaleStats` call (lines 223-247):
increment the observed bit's count for the current lane at the context index;
if that count reaches `INM_MAX_COUNT`, halve all four tables. -/
def updateTables (N : ℕ) (onesEven zerosEven onesOdd zerosOdd : ℕ → ℕ)
    (even bit : Bool) (idx : ℕ) : (ℕ → ℕ) × (ℕ → ℕ) × (ℕ → ℕ) × (ℕ → ℕ) :=
  if bit then
    if even then
      let t := Function.update onesEven idx (onesEven idx + 1)
      if t idx = INM_MAX_COUNT then
        (scaleTable N t, scaleTable N zerosEven, scaleTable N onesOdd, scaleTable N zerosOdd)
      else (t, zerosEven, onesOdd, zerosOdd)
    else
      let t := Function.update onesOdd idx (onesOdd idx + 1)
      if t idx = INM_MAX_COUNT then
        (scaleTable N onesEven, scaleTable N zerosEven, scaleTable N t, scaleTable N zerosOdd)
      else (onesEven, zerosEven, t, zerosOdd)
  else
    if even then
      let t := Function.update zerosEven idx (zerosEven idx + 1)
      if t idx = INM_MAX_COUNT then
        (scaleTable N onesEven, scaleTable N t, scaleTable N onesOdd, scaleTable N zerosOdd)
      else (onesEven, t, onesOdd, zerosOdd)
    else
      let t := Function.update zerosOdd idx (zerosOdd idx + 1)
      if t idx = INM_MAX_COUNT then
        (scaleTable N onesEven, scaleTable N zerosEven, scaleTable N onesOdd, scaleTable N t)
      else (onesEven, zerosEven, onesOdd, t)

/-- The cell value the table update produces at the context index: the count
for the observed bit on the current lane, after its increment (lines 225, 230,
237, 242). -/
def bumpedCell (onesEven zerosEven onesOdd zerosOdd : ℕ → ℕ) (even bit : Bool) (idx : ℕ) : ℕ :=
  (if bit then (if even then onesEven else onesOdd)
   else (if even then zerosEven else zerosOdd)) idx + 1

/-- The four tables after the increment of lines 223-247 but before any
`scaleStats` call: exactly one cell of one table is incremented. -/
def bumpTables (onesEven zerosEven onesOdd zerosOdd : ℕ → ℕ) (even bit : Bool) (idx : ℕ) :
    (ℕ → ℕ) × (ℕ → ℕ) × (ℕ → ℕ) × (ℕ → ℕ) :=
  if bit then
    if even then (Function.update onesEven idx (onesEven idx + 1), zerosEven, onesOdd, zerosOdd)
    else (onesEven, zerosEven, Function.update onesOdd idx (onesOdd idx + 1), zerosOdd)
  else
    if even then (onesEven, Function.update zerosEven idx (zerosEven idx + 1), onesOdd, zerosOdd)
    else (onesEven, zerosEven, onesOdd, Function.update zerosOdd idx (zerosOdd idx + 1))

/-- Models `scaleEntropy` (lines 128-135). -/
def scaleEntropy (s : InmState) : InmState :=
  if s.inmNumBitsSampled = INM_MIN_DATA then
    { s with inmNumBitsOfEntropy := s.inmNumBitsOfEntropy / 2,
             inmNumBitsSampled := s.inmNumBitsSampled / 2,
             inmEvenMisfires := s.inmEvenMisfires / 2,
             inmOddMisfires := s.inmOddMisfires / 2 }
  else s

/-- Models `scaleZeroOneCounts` (lines 139-145); `maxVal` is the larger of the two
counters. -/
def scaleZeroOneCounts (s : InmState) : InmState :=
  if max s.inmTotalZeros s.inmTotalOnes = INM_MIN_DATA then
    { s with inmTotalZeros := s.inmTotalZeros / 2,
             inmTotalOnes := s.inmTotalOnes / 2 }
  else s

/-- The state produced by a non-fatal `inmHealthCheckAddBit` call (lines
148-247) before the two final scale-downs, assembled in source order:
misfire bookkeeping, total-bit increment, context-window shift, run-length
statistics, probability update and entropy-credit loop, sampled-bit increment,
table increment with conditional `scaleStats`. -/
def coreUpdate (s : InmState) (evenBit oddBit even : Bool) : InmState :=
  let bit := selectedBit evenBit oddBit even
  let evenMisfires :=
    if even && (evenBit != s.inmPrevEven) then s.inmEvenMisfires + 1 else s.inmEvenMisfires
  let oddMisfires :=
    if !even && (oddBit != s.inmPrevOdd) then s.inmOddMisfires + 1 else s.inmOddMisfires
  let totalBits := s.inmTotalBits + 1
  let prevBits := nextPrevBits s
  let stats := runStats s.inmNumBitsSampled bit s.inmTotalOnes s.inmTotalZeros
    s.inmNumSequentialOnes s.inmNumSequentialZeros
  let p0 := probAfterLookup s evenBit oddBit even
  let cl := creditLoop totalBits s.inmNumBitsSampled s.inmExpectedEntropyPerBit p0
    s.inmNumBitsOfEntropy s.inmEntropyLevel
  let tabs := updateTables s.inmN s.inmOnesEven s.inmZerosEven s.inmOnesOdd s.inmZerosOdd
    even bit prevBits
  { inmN := s.inmN
    inmPrevBits := prevBits
    inmNumBitsSampled := s.inmNumBitsSampled + 1
    inmOnesEven := tabs.1
    inmZerosEven := tabs.2.1
    inmOnesOdd := tabs.2.2.1
    inmZerosOdd := tabs.2.2.2
    inmK := s.inmK
    inmExpectedEntropyPerBit := s.inmExpectedEntropyPerBit
    inmNumBitsOfEntropy := cl.2.1
    inmCurrentProbability := cl.1
    inmTotalBits := totalBits
    inmPrevBit := bit
    inmEntropyLevel := cl.2.2
    inmNumSequentialZeros := stats.2.2.2
    inmNumSequentialOnes := stats.2.2.1
    inmTotalOnes := stats.1
    inmTotalZeros := stats.2.1
    inmEvenMisfires := evenMisfires
    inmOddMisfires := oddMisfires
    inmPrevEven := evenBit
    inmPrevOdd := oddBit
    inmDebug := s.inmDebug }

/-- Models `inmHealthCheckAddBit` (lines 148-251): `none` models the `exit(1)` on the
run-length anomaly, `some` models `return true`. -/
def inmHealthCheckAddBit (s : InmState) (evenBit oddBit even : Bool) : Option InmState :=
  if runFails s.inmNumBitsSampled (selectedBit evenBit oddBit even)
      s.inmNumSequentialOnes s.inmNumSequentialZeros
  then none
  else some (scaleZeroOneCounts (scaleEntropy (coreUpdate s evenBit oddBit even)))

/-- The C globals at program load (static initialisation, lines 37-54). -/
def initialGlobals : InmState :=
  { inmN := 0, inmPrevBits := 0, inmNumBitsSampled := 0,
    inmOnesEven := fun _ => 0, inmZerosEven := fun _ => 0,
    inmOnesOdd := fun _ => 0, inmZerosOdd := fun _ => 0,
    inmK := 0, inmExpectedEntropyPerBit := 0,
    inmNumBitsOfEntropy := 0, inmCurrentProbability := 0,
    inmTotalBits := 0, inmPrevBit := false, inmEntropyLevel := 0,
    inmNumSequentialZeros := 0, inmNumSequentialOnes := 0,
    inmTotalOnes := 0, inmTotalZeros := 0,
    inmEvenMisfires := 0, inmOddMisfires := 0,
    inmPrevEven := false, inmPrevOdd := false, inmDebug := false }

/-- Models `inmHealthCheckStart` (lines 87-112).  `expected` is the double
`log(K)/log(2.0)` the C code computes (see the header comment).  Allocation is
modelled as always succeeding; the tables are zeroed as by `calloc`.  The
`inmPrevEven`/`inmPrevOdd` globals are not touched by the C function, so they
are carried over. -/
def inmHealthCheckStart (s : InmState) (N : ℕ) (K expected : ℚ) (debug : Bool) :
    Bool × InmState :=
  if N < 1 ∨ 30 < N then (false, s)
  else
    (true,
      { inmN := N, inmPrevBits := 0, inmNumBitsSampled := 0,
        inmOnesEven := fun _ => 0, inmZerosEven := fun _ => 0,
        inmOnesOdd := fun _ => 0, inmZerosOdd := fun _ => 0,
        inmK := K, inmExpectedEntropyPerBit := expected,
        inmNumBitsOfEntropy := 0, inmCurrentProbability := 1,
        inmTotalBits := 0, inmPrevBit := false, inmEntropyLevel := 0,
        inmNumSequentialZeros := 0, inmNumSequentialOnes := 0,
        inmTotalOnes := 0, inmTotalZeros := 0,
        inmEvenMisfires := 0, inmOddMisfires := 0,
        inmPrevEven := s.inmPrevEven, inmPrevOdd := s.inmPrevOdd, inmDebug := debug })

/-- Models `inmGetEntropyLevel` (lines 274-276). -/
def inmGetEntropyLevel (s : InmState) : ℕ := s.inmEntropyLevel

/-- Models `inmClearEntropyLevel` (lines 279-281). -/
def inmClearEntropyLevel (s : InmState) : InmState :=
  { s with inmEntropyLevel := 0 }

/-- Models `inmHealthCheckEstimateK` (lines 255-258): `pow(2.0, entropyPerBit)`,
modelled as real exponentiation of the exact quotient. -/
noncomputable def inmHealthCheckEstimateK (s : InmState) : ℝ :=
  let entropyPerBit : ℚ := (s.inmNumBitsOfEntropy : ℚ) / (s.inmNumBitsSampled : ℚ)
  (2 : ℝ) ^ (entropyPerBit : ℝ)

/-- Run a list of `inmHealthCheckAddBit` calls, each given as
`(evenBit, oddBit, even)`; a fatal anomaly aborts the run. -/
def runAddBits : InmState → List (Bool × Bool × Bool) → Option InmState
  | s, [] => some s
  | s, (e, o, v) :: rest =>
    match inmHealthCheckAddBit s e o v with
    | none => none
    | some s' => runAddBits s' rest

/-- Run `inmHealthCheckStart` on the load-time globals and then a list of
`inmHealthCheckAddBit` calls; `none` if start is rejected or a call is fatal. -/
def runFromStart (N : ℕ) (K expected : ℚ) (debug : Bool)
    (calls : List (Bool × Bool × Bool)) : Option InmState :=
  match inmHealthCheckStart initialGlobals N K expected debug with
  | (true, s) => runAddBits s calls
  | (false, _) => none

/-- The integer fields that determine the run-length guard: sampled-bit count
and the two sequential-bit counters. -/
def statView (s : InmState) : ℕ × ℕ × ℕ :=
  (s.inmNumBitsSampled, s.inmNumSequentialOnes, s.inmNumSequentialZeros)

/-- The action of one `inmHealthCheckAddBit` call on `statView` (proved to
commute with the full model in `addBit_statView`); computable without rational
arithmetic, so concrete runs can be evaluated by `decide`. -/
def viewStep (w : ℕ × ℕ × ℕ) (c : Bool × Bool × Bool) : Option (ℕ × ℕ × ℕ) :=
  let bit := selectedBit c.1 c.2.1 c.2.2
  if runFails w.1 bit w.2.1 w.2.2 then none
  else
    let st := runStats w.1 bit 0 0 w.2.1 w.2.2
    some (if w.1 + 1 = INM_MIN_DATA then (w.1 + 1) / 2 else w.1 + 1, st.2.2.1, st.2.2.2)

/-- Iterates `viewStep` over a call list. -/
def viewRun : ℕ × ℕ × ℕ → List (Bool × Bool × Bool) → Option (ℕ × ℕ × ℕ)
  | w, [] => some w
  | w, c :: rest =>
    match viewStep w c with
    | none => none
    | some w' => viewRun w' rest

/-- The entropy-unit and sampled-bit counters, for stating concrete runs. -/
def entView (s : InmState) : ℕ × ℕ :=
  (s.inmNumBitsOfEntropy, s.inmNumBitsSampled)

/-- A concrete state used to witness the scale-down characterisation: the
sampled-bit counter is exactly at its ceiling. -/
def sampleStateA : InmState :=
  { initialGlobals with
    inmNumBitsSampled := INM_MIN_DATA, inmNumBitsOfEntropy := 6,
    inmCurrentProbability := 1, inmN := 1, inmK := 2, inmExpectedEntropyPerBit := 1,
    inmEvenMisfires := 9, inmOddMisfires := 4 }

/-- A concrete state one call away from the sampled-bit ceiling, with an odd
entropy-unit counter. -/
def sampleStateB : InmState :=
  { initialGlobals with
    inmNumBitsSampled := 79999, inmNumBitsOfEntropy := 1,
    inmCurrentProbability := 1, inmN := 1, inmK := 2, inmExpectedEntropyPerBit := 1,
    inmTotalBits := 100000, inmTotalOnes := 200, inmTotalZeros := 300 }

/-- A concrete state just past the warm-up boundary: 101 bits sampled, both
sequential counters zero. -/
def sampleStateC : InmState :=
  { initialGlobals with
    inmNumBitsSampled := 101,
    inmCurrentProbability := 1, inmN := 1, inmK := 2, inmExpectedEntropyPerBit := 1 }

/-- 100 even-lane zero-bit calls: enough to reach 100 sampled bits. -/
def cexCalls100 : List (Bool × Bool × Bool) := List.replicate 100 (false, false, true)

/-- The 100 warm-up calls followed by 21 consecutive even-lane one-bits. -/
def cexCalls : List (Bool × Bool × Bool) :=
  cexCalls100 ++ List.replicate 21 (true, false, true)

/-! ### Lemmas about the entropy-credit loop -/

theorem creditLoopGo_of_gt_half (tb nbs : ℕ) (e : ℚ) (fuel : ℕ) (p : ℚ) (nboe level : ℕ)
    (h : ¬(p ≤ 1 / 2)) : creditLoopGo tb nbs e fuel p nboe level = (p, nboe, level) := by
  cases fuel with
  | zero => rfl
  | succ n => rw [creditLoopGo, if_neg h]

theorem creditLoopGo_gt_half (tb nbs : ℕ) (e : ℚ) :
    ∀ (fuel : ℕ) (p : ℚ) (nboe level : ℕ), 1 / 2 < 2 ^ fuel * p →
      1 / 2 < (creditLoopGo tb nbs e fuel p nboe level).1 := by
  intro fuel
  induction fuel with
  | zero => intro p nboe level h; simpa [creditLoopGo] using h
  | succ n ih =>
    intro p nboe level h
    by_cases hp : p ≤ 1 / 2
    · simp only [creditLoopGo, if_pos hp]
      apply ih
      have h2 : (2 : ℚ) ^ n * (p * 2) = 2 ^ (n + 1) * p := by ring
      rw [h2]; exact h
    · simp only [creditLoopGo, if_neg hp]
      exact not_le.mp hp

theorem creditLoopGo_le_one (tb nbs : ℕ) (e : ℚ) :
    ∀ (fuel : ℕ) (p : ℚ) (nboe level : ℕ), p ≤ 1 →
      (creditLoopGo tb nbs e fuel p nboe level).1 ≤ 1 := by
  intro fuel
  induction fuel with
  | zero => intro p nboe level h; simpa [creditLoopGo] using h
  | succ n ih =>
    intro p nboe level h
    by_cases hp : p ≤ 1 / 2
    · simp only [creditLoopGo, if_pos hp]
      exact ih _ _ _ (by linarith)
    · simpa only [creditLoopGo, if_neg hp] using h

theorem creditLoopGo_level_mono (tb nbs : ℕ) (e : ℚ) :
    ∀ (fuel : ℕ) (p : ℚ) (nboe level : ℕ),
      level ≤ (creditLoopGo tb nbs e fuel p nboe level).2.2 := by
  intro fuel
  induction fuel with
  | zero => intro p nboe level; simp [creditLoopGo]
  | succ n ih =>
    intro p nboe level
    by_cases hp : p ≤ 1 / 2
    · simp only [creditLoopGo, if_pos hp]
      refine le_trans ?_ (ih _ _ _)
      split <;> omega
    · rw [creditLoopGo, if_neg hp]

theorem creditLoopGo_level_cap (tb nbs : ℕ) (e : ℚ) :
    ∀ (fuel : ℕ) (p : ℚ) (nboe level : ℕ), level ≤ INM_MAX_ENTROPY →
      (creditLoopGo tb nbs e fuel p nboe level).2.2 ≤ INM_MAX_ENTROPY := by
  intro fuel
  induction fuel with
  | zero => intro p nboe level h; simpa [creditLoopGo] using h
  | succ n ih =>
    intro p nboe level h
    by_cases hp : p ≤ 1 / 2
    · simp only [creditLoopGo, if_pos hp]
      apply ih
      split
      · next hc =>
        have := (Bool.and_eq_true _ _).mp hc
        have hlt : level < INM_MAX_ENTROPY := by
          have := this.2
          simpa using this
        omega
      · exact h
    · simpa only [creditLoopGo, if_neg hp] using h

theorem creditLoopGo_level_nboe (tb nbs : ℕ) (e : ℚ) :
    ∀ (fuel : ℕ) (p : ℚ) (nboe level : ℕ),
      (creditLoopGo tb nbs e fuel p nboe level).2.2 + nboe ≤
        level + (creditLoopGo tb nbs e fuel p nboe level).2.1 := by
  intro fuel
  induction fuel with
  | zero => intro p nboe level; simp [creditLoopGo]
  | succ n ih =>
    intro p nboe level
    by_cases hp : p ≤ 1 / 2
    · simp only [creditLoopGo, if_pos hp]
      split
      · have h1 := ih (p * 2) (nboe + 1) (level + 1)
        omega
      · have h1 := ih (p * 2) (nboe + 1) level
        omega
    · rw [creditLoopGo, if_neg hp]

theorem creditLoopGo_level_ok (tb nbs : ℕ) (e : ℚ) :
    ∀ (fuel : ℕ) (p : ℚ) (nboe level : ℕ),
      (creditLoopGo tb nbs e fuel p nboe level).2.2 ≠ level →
      ∃ m, nboe < m ∧ okOf tb nbs m e = true := by
  intro fuel
  induction fuel with
  | zero => intro p nboe level h; simp [creditLoopGo] at h
  | succ n ih =>
    intro p nboe level h
    by_cases hp : p ≤ 1 / 2
    · simp only [creditLoopGo, if_pos hp] at h
      by_cases hc : (okOf tb nbs (nboe + 1) e && decide (level < INM_MAX_ENTROPY)) = true
      · exact ⟨nboe + 1, Nat.lt_succ_self _, ((Bool.and_eq_true _ _).mp hc).1⟩
      · rw [if_neg hc] at h
        obtain ⟨m, hm, hok⟩ := ih _ _ _ h
        exact ⟨m, by omega, hok⟩
    · rw [creditLoopGo, if_neg hp] at h
      exact absurd rfl h

theorem creditLoopGo_nboe_le (tb nbs : ℕ) (e : ℚ) :
    ∀ (fuel : ℕ) (p : ℚ) (nboe level : ℕ),
      nboe ≤ (creditLoopGo tb nbs e fuel p nboe level).2.1 := by
  intro fuel
  induction fuel with
  | zero => intro p nboe level; simp [creditLoopGo]
  | succ n ih =>
    intro p nboe level
    by_cases hp : p ≤ 1 / 2
    · simp only [creditLoopGo, if_pos hp]
      exact le_trans (Nat.le_succ _) (ih _ _ _)
    · rw [creditLoopGo, if_neg hp]

theorem creditLoopGo_level_eq_fold (tb nbs : ℕ) (e : ℚ) :
    ∀ (fuel : ℕ) (p : ℚ) (nboe level : ℕ),
      (creditLoopGo tb nbs e fuel p nboe level).2.2 =
        levelFold tb nbs e nboe ((creditLoopGo tb nbs e fuel p nboe level).2.1 - nboe)
          level := by
  intro fuel
  induction fuel with
  | zero =>
    intro p nboe level
    simp only [creditLoopGo, Nat.sub_self]
    rfl
  | succ n ih =>
    intro p nboe level
    by_cases hp : p ≤ 1 / 2
    · simp only [creditLoopGo, if_pos hp]
      have hle := creditLoopGo_nboe_le tb nbs e n (p * 2) (nboe + 1)
        (if okOf tb nbs (nboe + 1) e && decide (level < INM_MAX_ENTROPY)
         then level + 1 else level)
      have hk : (creditLoopGo tb nbs e n (p * 2) (nboe + 1)
            (if okOf tb nbs (nboe + 1) e && decide (level < INM_MAX_ENTROPY)
             then level + 1 else level)).2.1 - nboe =
          ((creditLoopGo tb nbs e n (p * 2) (nboe + 1)
            (if okOf tb nbs (nboe + 1) e && decide (level < INM_MAX_ENTROPY)
             then level + 1 else level)).2.1 - (nboe + 1)) + 1 := by
        omega
      rw [ih, hk]
      rfl
    · rw [creditLoopGo, if_neg hp]
      simp only [Nat.sub_self]
      rfl

theorem half_lt_two_pow_den_mul (p : ℚ) (hp : 0 < p) :
    1 / 2 < 2 ^ (p.den + 1) * p := by
  have hd : (0 : ℚ) < (p.den : ℚ) := by exact_mod_cast p.den_pos
  have hnum : (1 : ℚ) ≤ (p.num : ℚ) := by
    have h1 : (0 : ℤ) < p.num := Rat.num_pos.mpr hp
    exact_mod_cast h1
  have key : 1 / (p.den : ℚ) ≤ p := by
    conv_rhs => rw [← Rat.num_div_den p]
    rw [div_le_div_iff₀ hd hd]
    exact mul_le_mul_of_nonneg_right hnum (le_of_lt hd)
  have step1 : 2 ^ (p.den + 1) * (1 / (p.den : ℚ)) ≤ 2 ^ (p.den + 1) * p :=
    mul_le_mul_of_nonneg_left key (by positivity)
  have hden : (p.den : ℚ) < 2 ^ p.den := by exact_mod_cast Nat.lt_two_pow p.den
  have hpow : (0 : ℚ) < 2 ^ p.den := by positivity
  have step2 : (1 : ℚ) / 2 < 2 ^ (p.den + 1) * (1 / (p.den : ℚ)) := by
    rw [mul_one_div, div_lt_div_iff₀ (by norm_num) hd, one_mul]
    have h2 : (2 : ℚ) ^ (p.den + 1) = 2 * 2 ^ p.den := by ring
    rw [h2]
    nlinarith
  linarith

theorem creditLoop_gt_half (tb nbs : ℕ) (e : ℚ) (p : ℚ) (nboe level : ℕ) (hp : 0 < p) :
    1 / 2 < (creditLoop tb nbs e p nboe level).1 :=
  creditLoopGo_gt_half tb nbs e _ p nboe level (half_lt_two_pow_den_mul p hp)

theorem creditLoop_le_one (tb nbs : ℕ) (e : ℚ) (p : ℚ) (nboe level : ℕ) (hp : p ≤ 1) :
    (creditLoop tb nbs e p nboe level).1 ≤ 1 :=
  creditLoopGo_le_one tb nbs e _ p nboe level hp

theorem creditLoop_of_gt_half (tb nbs : ℕ) (e : ℚ) (p : ℚ) (nboe level : ℕ)
    (h : ¬(p ≤ 1 / 2)) : creditLoop tb nbs e p nboe level = (p, nboe, level) :=
  creditLoopGo_of_gt_half tb nbs e _ p nboe level h

/-! ### Projection lemmas for the scale-down functions -/

theorem scaleEntropy_inmN (s : InmState) : (scaleEntropy s).inmN = s.inmN := by
  unfold scaleEntropy; split <;> rfl

theorem scaleEntropy_inmPrevBits (s : InmState) :
    (scaleEntropy s).inmPrevBits = s.inmPrevBits := by
  unfold scaleEntropy; split <;> rfl

theorem scaleEntropy_inmNumBitsSampled (s : InmState) :
    (scaleEntropy s).inmNumBitsSampled =
      if s.inmNumBitsSampled = INM_MIN_DATA then s.inmNumBitsSampled / 2
      else s.inmNumBitsSampled := by
  unfold scaleEntropy; split <;> rfl

theorem scaleEntropy_inmNumBitsOfEntropy (s : InmState) :
    (scaleEntropy s).inmNumBitsOfEntropy =
      if s.inmNumBitsSampled = INM_MIN_DATA then s.inmNumBitsOfEntropy / 2
      else s.inmNumBitsOfEntropy := by
  unfold scaleEntropy; split <;> rfl

theorem scaleEntropy_inmCurrentProbability (s : InmState) :
    (scaleEntropy s).inmCurrentProbability = s.inmCurrentProbability := by
  unfold scaleEntropy; split <;> rfl

theorem scaleEntropy_inmTotalBits (s : InmState) :
    (scaleEntropy s).inmTotalBits = s.inmTotalBits := by
  unfold scaleEntropy; split <;> rfl

theorem scaleEntropy_inmEntropyLevel (s : InmState) :
    (scaleEntropy s).inmEntropyLevel = s.inmEntropyLevel := by
  unfold scaleEntropy; split <;> rfl

theorem scaleEntropy_inmNumSequentialOnes (s : InmState) :
    (scaleEntropy s).inmNumSequentialOnes = s.inmNumSequentialOnes := by
  unfold scaleEntropy; split <;> rfl

theorem scaleEntropy_inmNumSequentialZeros (s : InmState) :
    (scaleEntropy s).inmNumSequentialZeros = s.inmNumSequentialZeros := by
  unfold scaleEntropy; split <;> rfl

theorem scaleEntropy_inmOnesEven (s : InmState) :
    (scaleEntropy s).inmOnesEven = s.inmOnesEven := by
  unfold scaleEntropy; split <;> rfl

theorem scaleEntropy_inmZerosEven (s : InmState) :
    (scaleEntropy s).inmZerosEven = s.inmZerosEven := by
  unfold scaleEntropy; split <;> rfl

theorem scaleEntropy_inmOnesOdd (s : InmState) :
    (scaleEntropy s).inmOnesOdd = s.inmOnesOdd := by
  unfold scaleEntropy; split <;> rfl

theorem scaleEntropy_inmZerosOdd (s : InmState) :
    (scaleEntropy s).inmZerosOdd = s.inmZerosOdd := by
  unfold scaleEntropy; split <;> rfl

theorem scaleZeroOneCounts_inmN (s : InmState) :
    (scaleZeroOneCounts s).inmN = s.inmN := by
  unfold scaleZeroOneCounts; split <;> rfl

theorem scaleZeroOneCounts_inmPrevBits (s : InmState) :
    (scaleZeroOneCounts s).inmPrevBits = s.inmPrevBits := by
  unfold scaleZeroOneCounts; split <;> rfl

theorem scaleZeroOneCounts_inmNumBitsSampled (s : InmState) :
    (scaleZeroOneCounts s).inmNumBitsSampled = s.inmNumBitsSampled := by
  unfold scaleZeroOneCounts; split <;> rfl

theorem scaleZeroOneCounts_inmNumBitsOfEntropy (s : InmState) :
    (scaleZeroOneCounts s).inmNumBitsOfEntropy = s.inmNumBitsOfEntropy := by
  unfold scaleZeroOneCounts; split <;> rfl

theorem scaleZeroOneCounts_inmCurrentProbability (s : InmState) :
    (scaleZeroOneCounts s).inmCurrentProbability = s.inmCurrentProbability := by
  unfold scaleZeroOneCounts; split <;> rfl

theorem scaleZeroOneCounts_inmTotalBits (s : InmState) :
    (scaleZeroOneCounts s).inmTotalBits = s.inmTotalBits := by
  unfold scaleZeroOneCounts; split <;> rfl

theorem scaleZeroOneCounts_inmEntropyLevel (s : InmState) :
    (scaleZeroOneCounts s).inmEntropyLevel = s.inmEntropyLevel := by
  unfold scaleZeroOneCounts; split <;> rfl

theorem scaleZeroOneCounts_inmNumSequentialOnes (s : InmState) :
    (scaleZeroOneCounts s).inmNumSequentialOnes = s.inmNumSequentialOnes := by
  unfold scaleZeroOneCounts; split <;> rfl

theorem scaleZeroOneCounts_inmNumSequentialZeros (s : InmState) :
    (scaleZeroOneCounts s).inmNumSequentialZeros = s.inmNumSequentialZeros := by
  unfold scaleZeroOneCounts; split <;> rfl

theorem scaleZeroOneCounts_inmOnesEven (s : InmState) :
    (scaleZeroOneCounts s).inmOnesEven = s.inmOnesEven := by
  unfold scaleZeroOneCounts; split <;> rfl

theorem scaleZeroOneCounts_inmZerosEven (s : InmState) :
    (scaleZeroOneCounts s).inmZerosEven = s.inmZerosEven := by
  unfold scaleZeroOneCounts; split <;> rfl

theorem scaleZeroOneCounts_inmOnesOdd (s : InmState) :
    (scaleZeroOneCounts s).inmOnesOdd = s.inmOnesOdd := by
  unfold scaleZeroOneCounts; split <;> rfl

theorem scaleZeroOneCounts_inmZerosOdd (s : InmState) :
    (scaleZeroOneCounts s).inmZerosOdd = s.inmZerosOdd := by
  unfold scaleZeroOneCounts; split <;> rfl

/-! ### Projection lemmas for `coreUpdate` and `inmHealthCheckAddBit` -/

theorem coreUpdate_inmN (s : InmState) (e o v : Bool) : (coreUpdate s e o v).inmN = s.inmN := rfl

theorem coreUpdate_inmPrevBits (s : InmState) (e o v : Bool) :
    (coreUpdate s e o v).inmPrevBits = nextPrevBits s := rfl

theorem coreUpdate_inmNumBitsSampled (s : InmState) (e o v : Bool) :
    (coreUpdate s e o v).inmNumBitsSampled = s.inmNumBitsSampled + 1 := rfl

theorem coreUpdate_inmTotalBits (s : InmState) (e o v : Bool) :
    (coreUpdate s e o v).inmTotalBits = s.inmTotalBits + 1 := rfl

theorem coreUpdate_inmCurrentProbability (s : InmState) (e o v : Bool) :
    (coreUpdate s e o v).inmCurrentProbability =
      (creditLoop (s.inmTotalBits + 1) s.inmNumBitsSampled s.inmExpectedEntropyPerBit
        (probAfterLookup s e o v) s.inmNumBitsOfEntropy s.inmEntropyLevel).1 := rfl

theorem coreUpdate_inmNumBitsOfEntropy (s : InmState) (e o v : Bool) :
    (coreUpdate s e o v).inmNumBitsOfEntropy =
      (creditLoop (s.inmTotalBits + 1) s.inmNumBitsSampled s.inmExpectedEntropyPerBit
        (probAfterLookup s e o v) s.inmNumBitsOfEntropy s.inmEntropyLevel).2.1 := rfl

theorem coreUpdate_inmEntropyLevel (s : InmState) (e o v : Bool) :
    (coreUpdate s e o v).inmEntropyLevel =
      (creditLoop (s.inmTotalBits + 1) s.inmNumBitsSampled s.inmExpectedEntropyPerBit
        (probAfterLookup s e o v) s.inmNumBitsOfEntropy s.inmEntropyLevel).2.2 := rfl

theorem coreUpdate_inmNumSequentialOnes (s : InmState) (e o v : Bool) :
    (coreUpdate s e o v).inmNumSequentialOnes =
      (runStats s.inmNumBitsSampled (selectedBit e o v) s.inmTotalOnes s.inmTotalZeros
        s.inmNumSequentialOnes s.inmNumSequentialZeros).2.2.1 := rfl

theorem coreUpdate_inmNumSequentialZeros (s : InmState) (e o v : Bool) :
    (coreUpdate s e o v).inmNumSequentialZeros =
      (runStats s.inmNumBitsSampled (selectedBit e o v) s.inmTotalOnes s.inmTotalZeros
        s.inmNumSequentialOnes s.inmNumSequentialZeros).2.2.2 := rfl

theorem coreUpdate_inmOnesEven (s : InmState) (e o v : Bool) :
    (coreUpdate s e o v).inmOnesEven =
      (updateTables s.inmN s.inmOnesEven s.inmZerosEven s.inmOnesOdd s.inmZerosOdd
        v (selectedBit e o v) (nextPrevBits s)).1 := rfl

theorem coreUpdate_inmZerosEven (s : InmState) (e o v : Bool) :
    (coreUpdate s e o v).inmZerosEven =
      (updateTables s.inmN s.inmOnesEven s.inmZerosEven s.inmOnesOdd s.inmZerosOdd
        v (selectedBit e o v) (nextPrevBits s)).2.1 := rfl

theorem coreUpdate_inmOnesOdd (s : InmState) (e o v : Bool) :
    (coreUpdate s e o v).inmOnesOdd =
      (updateTables s.inmN s.inmOnesEven s.inmZerosEven s.inmOnesOdd s.inmZerosOdd
        v (selectedBit e o v) (nextPrevBits s)).2.2.1 := rfl

theorem coreUpdate_inmZerosOdd (s : InmState) (e o v : Bool) :
    (coreUpdate s e o v).inmZerosOdd =
      (updateTables s.inmN s.inmOnesEven s.inmZerosEven s.inmOnesOdd s.inmZerosOdd
        v (selectedBit e o v) (nextPrevBits s)).2.2.2 := rfl

theorem addBit_eq_none_iff (s : InmState) (e o v : Bool) :
    inmHealthCheckAddBit s e o v = none ↔
      runFails s.inmNumBitsSampled (selectedBit e o v)
        s.inmNumSequentialOnes s.inmNumSequentialZeros = true := by
  unfold inmHealthCheckAddBit
  split
  · next h => simp [h]
  · next h => simp [h]

theorem addBit_eq_some_of (s : InmState) (e o v : Bool)
    (h : runFails s.inmNumBitsSampled (selectedBit e o v)
      s.inmNumSequentialOnes s.inmNumSequentialZeros = false) :
    inmHealthCheckAddBit s e o v =
      some (scaleZeroOneCounts (scaleEntropy (coreUpdate s e o v))) := by
  unfold inmHealthCheckAddBit
  rw [if_neg]
  simp [h]

theorem addBit_some_elim (s : InmState) (e o v : Bool) (s' : InmState)
    (h : inmHealthCheckAddBit s e o v = some s') :
    s' = scaleZeroOneCounts (scaleEntropy (coreUpdate s e o v)) ∧
      runFails s.inmNumBitsSampled (selectedBit e o v)
        s.inmNumSequentialOnes s.inmNumSequentialZeros = false := by
  unfold inmHealthCheckAddBit at h
  split at h
  · exact absurd h (by simp)
  · next hb =>
    refine ⟨(Option.some_inj.mp h).symm, ?_⟩
    simpa using hb

/-! ### Lemmas about call sequences -/

theorem runAddBits_nil (s : InmState) : runAddBits s [] = some s := rfl

theorem runAddBits_cons_some (s s₁ : InmState) (e o v : Bool)
    (rest : List (Bool × Bool × Bool)) (h : inmHealthCheckAddBit s e o v = some s₁) :
    runAddBits s ((e, o, v) :: rest) = runAddBits s₁ rest := by
  simp [runAddBits, h]

theorem runAddBits_cons_none (s : InmState) (e o v : Bool)
    (rest : List (Bool × Bool × Bool)) (h : inmHealthCheckAddBit s e o v = none) :
    runAddBits s ((e, o, v) :: rest) = none := by
  simp [runAddBits, h]

theorem runAddBits_append (l₁ l₂ : List (Bool × Bool × Bool)) :
    ∀ s : InmState, runAddBits s (l₁ ++ l₂) =
      (runAddBits s l₁).bind (fun t => runAddBits t l₂) := by
  induction l₁ with
  | nil => intro s; simp [runAddBits]
  | cons c rest ih =>
    intro s
    obtain ⟨e, o, v⟩ := c
    cases h : inmHealthCheckAddBit s e o v with
    | none => simp [runAddBits_cons_none _ _ _ _ _ h]
    | some s₁ => simp [runAddBits_cons_some _ _ _ _ _ _ h, ih]

theorem runAddBits_inv {P : InmState → Prop}
    (step : ∀ s evenBit oddBit even s', P s →
      inmHealthCheckAddBit s evenBit oddBit even = some s' → P s') :
    ∀ (calls : List (Bool × Bool × Bool)) (s s' : InmState),
      P s → runAddBits s calls = some s' → P s' := by
  intro calls
  induction calls with
  | nil =>
    intro s s' hP h
    rw [runAddBits_nil, Option.some_inj] at h
    exact h ▸ hP
  | cons c rest ih =>
    intro s s' hP h
    obtain ⟨e, o, v⟩ := c
    cases hs : inmHealthCheckAddBit s e o v with
    | none => rw [runAddBits_cons_none _ _ _ _ _ hs] at h; exact absurd h (by simp)
    | some s₁ =>
      rw [runAddBits_cons_some _ _ _ _ _ _ hs] at h
      exact ih s₁ s' (step s e o v s₁ hP hs) h

theorem addBit_inmTotalBits (s : InmState) (e o v : Bool) (s' : InmState)
    (h : inmHealthCheckAddBit s e o v = some s') :
    s'.inmTotalBits = s.inmTotalBits + 1 := by
  obtain ⟨rfl, -⟩ := addBit_some_elim s e o v s' h
  rw [scaleZeroOneCounts_inmTotalBits, scaleEntropy_inmTotalBits, coreUpdate_inmTotalBits]

theorem runAddBits_inmTotalBits :
    ∀ (calls : List (Bool × Bool × Bool)) (s s' : InmState),
      runAddBits s calls = some s' → s'.inmTotalBits = s.inmTotalBits + calls.length := by
  intro calls
  induction calls with
  | nil =>
    intro s s' h
    rw [runAddBits_nil, Option.some_inj] at h
    simp [← h]
  | cons c rest ih =>
    intro s s' h
    obtain ⟨e, o, v⟩ := c
    cases hs : inmHealthCheckAddBit s e o v with
    | none => rw [runAddBits_cons_none _ _ _ _ _ hs] at h; exact absurd h (by simp)
    | some s₁ =>
      rw [runAddBits_cons_some _ _ _ _ _ _ hs] at h
      have h1 := ih s₁ s' h
      have h2 := addBit_inmTotalBits s e o v s₁ hs
      simp [h1, h2]
      omega

theorem start_of_invalid (s : InmState) (N : ℕ) (K e : ℚ) (d : Bool)
    (h : N < 1 ∨ 30 < N) : inmHealthCheckStart s N K e d = (false, s) := by
  unfold inmHealthCheckStart
  rw [if_pos h]

theorem runFromStart_eq_of_valid (N : ℕ) (K e : ℚ) (d : Bool)
    (calls : List (Bool × Bool × Bool)) (h : ¬(N < 1 ∨ 30 < N)) :
    runFromStart N K e d calls =
      runAddBits ((inmHealthCheckStart initialGlobals N K e d).2) calls := by
  unfold runFromStart inmHealthCheckStart
  rw [if_neg h]

theorem runFromStart_some_valid (N : ℕ) (K e : ℚ) (d : Bool)
    (calls : List (Bool × Bool × Bool)) (s' : InmState)
    (h : runFromStart N K e d calls = some s') : ¬(N < 1 ∨ 30 < N) := by
  intro hbad
  unfold runFromStart at h
  rw [start_of_invalid _ _ _ _ _ hbad] at h
  exact absurd h (by simp)

/-! ### The context window stays below the table size -/

theorem nextPrevBits_lt (s : InmState) (h : 1 ≤ s.inmN) :
    nextPrevBits s < 2 ^ s.inmN := by
  unfold nextPrevBits
  have h3 : (1 : ℕ) <<< s.inmN = 2 ^ s.inmN := Nat.one_shiftLeft _
  have h4 : 0 < 2 ^ s.inmN := pow_pos (by norm_num) _
  have h1 : (s.inmPrevBits <<< 1) &&& ((1 <<< s.inmN) - 1) < 2 ^ s.inmN := by
    have h2 : (s.inmPrevBits <<< 1) &&& ((1 <<< s.inmN) - 1) ≤ (1 <<< s.inmN) - 1 :=
      Nat.and_le_right
    omega
  have h5 : (if s.inmPrevBit then 1 else 0) < 2 ^ s.inmN := by
    have h6 : (1 : ℕ) < 2 ^ s.inmN := by
      calc (1 : ℕ) < 2 := one_lt_two
        _ = 2 ^ 1 := (pow_one 2).symm
        _ ≤ 2 ^ s.inmN := Nat.pow_le_pow_right (by norm_num) h
    split <;> omega
  exact Nat.or_lt_two_pow h1 h5

/-! ### Bounds on the probability update -/

theorem mul_ratio_pos_le_one (p : ℚ) (c t : ℕ) (hc : c ≠ 0) (hct : c ≤ t)
    (hp0 : 0 < p) (hp1 : p ≤ 1) :
    0 < p * ((c : ℚ) / (t : ℚ)) ∧ p * ((c : ℚ) / (t : ℚ)) ≤ 1 := by
  have hc' : (0 : ℚ) < (c : ℚ) := by exact_mod_cast Nat.pos_of_ne_zero hc
  have hct' : (c : ℚ) ≤ (t : ℚ) := by exact_mod_cast hct
  have ht : (0 : ℚ) < (t : ℚ) := lt_of_lt_of_le hc' hct'
  have hr0 : 0 < (c : ℚ) / (t : ℚ) := div_pos hc' ht
  have hr1 : (c : ℚ) / (t : ℚ) ≤ 1 := (div_le_one ht).mpr hct'
  exact ⟨mul_pos hp0 hr0, mul_le_one₀ hp1 (le_of_lt hr0) hr1⟩

theorem probAfterLookup_bounds (s : InmState) (e o v : Bool)
    (hp0 : 0 < s.inmCurrentProbability) (hp1 : s.inmCurrentProbability ≤ 1) :
    0 < probAfterLookup s e o v ∧ probAfterLookup s e o v ≤ 1 := by
  simp only [probAfterLookup]
  split_ifs <;>
    first
      | exact ⟨hp0, hp1⟩
      | exact mul_ratio_pos_le_one _ _ _ (by assumption) (Nat.le_add_left _ _) hp0 hp1
      | exact mul_ratio_pos_le_one _ _ _ (by assumption) (Nat.le_add_right _ _) hp0 hp1

theorem probAfterLookup_of_matchingCount_zero (s : InmState) (e o v : Bool)
    (h : matchingCount s e o v = 0) :
    probAfterLookup s e o v = s.inmCurrentProbability := by
  unfold matchingCount at h
  simp only [probAfterLookup]
  split_ifs at h ⊢ <;> simp_all

/-! ### Simulation of the run-length guard on the integer projection -/

theorem runStats_seq (n : ℕ) (b : Bool) (t1 t2 c1 c2 : ℕ) :
    (runStats n b t1 t2 c1 c2).2.2.1 = (runStats n b 0 0 c1 c2).2.2.1 ∧
      (runStats n b t1 t2 c1 c2).2.2.2 = (runStats n b 0 0 c1 c2).2.2.2 := by
  unfold runStats
  split_ifs <;> exact ⟨rfl, rfl⟩

theorem addBit_statView (s : InmState) (e o v : Bool) :
    (inmHealthCheckAddBit s e o v).map statView = viewStep (statView s) (e, o, v) := by
  cases hf : runFails s.inmNumBitsSampled (selectedBit e o v)
      s.inmNumSequentialOnes s.inmNumSequentialZeros with
  | true =>
    rw [(addBit_eq_none_iff s e o v).mpr hf]
    simp only [viewStep, statView, Option.map_none']
    rw [if_pos hf]
  | false =>
    rw [addBit_eq_some_of s e o v hf]
    simp only [viewStep, statView, Option.map_some']
    rw [if_neg (by simp [hf])]
    refine congrArg some ?_
    refine Prod.ext ?_ (Prod.ext ?_ ?_)
    · simp only [scaleZeroOneCounts_inmNumBitsSampled, scaleEntropy_inmNumBitsSampled,
        coreUpdate_inmNumBitsSampled]
    · simp only [scaleZeroOneCounts_inmNumSequentialOnes, scaleEntropy_inmNumSequentialOnes,
        coreUpdate_inmNumSequentialOnes]
      exact (runStats_seq _ _ _ _ _ _).1
    · simp only [scaleZeroOneCounts_inmNumSequentialZeros, scaleEntropy_inmNumSequentialZeros,
        coreUpdate_inmNumSequentialZeros]
      exact (runStats_seq _ _ _ _ _ _).2

theorem runAddBits_statView :
    ∀ (calls : List (Bool × Bool × Bool)) (s : InmState),
      (runAddBits s calls).map statView = viewRun (statView s) calls := by
  intro calls
  induction calls with
  | nil => intro s; rfl
  | cons c rest ih =>
    intro s
    obtain ⟨e, o, v⟩ := c
    cases hs : inmHealthCheckAddBit s e o v with
    | none =>
      rw [runAddBits_cons_none _ _ _ _ _ hs]
      have h2 := addBit_statView s e o v
      rw [hs] at h2
      unfold viewRun
      rw [← h2]
      simp
    | some s₁ =>
      rw [runAddBits_cons_some _ _ _ _ _ _ hs]
      have h2 := addBit_statView s e o v
      rw [hs] at h2
      unfold viewRun
      rw [← h2]
      simpa using ih s₁

/-! ### Lemmas about the occurrence tables -/

theorem scaleTable_le (N : ℕ) (t : ℕ → ℕ) (i : ℕ) : scaleTable N t i ≤ t i := by
  unfold scaleTable
  split
  · exact Nat.div_le_self _ _
  · exact le_refl _

theorem scaleTable_lt (N : ℕ) (t : ℕ → ℕ) (C : ℕ) (h : ∀ i, t i < C) (i : ℕ) :
    scaleTable N t i < C :=
  lt_of_le_of_lt (scaleTable_le N t i) (h i)

theorem scaleTable_update_lt (N idx : ℕ) (t : ℕ → ℕ)
    (ht : ∀ i, t i < INM_MAX_COUNT) (hidx : idx < 1 <<< N) (i : ℕ) :
    scaleTable N (Function.update t idx (t idx + 1)) i < INM_MAX_COUNT := by
  have hC : INM_MAX_COUNT = 16384 := rfl
  unfold scaleTable
  rw [Function.update_apply]
  split
  · split
    · next hi =>
      have := ht idx
      omega
    · have := ht i
      omega
  · split
    · next hi =>
      next hlt => exact absurd (hi ▸ hidx) hlt
    · exact ht i

theorem update_lt_of_ne (idx : ℕ) (t : ℕ → ℕ) (ht : ∀ i, t i < INM_MAX_COUNT)
    (hmiss : Function.update t idx (t idx + 1) idx ≠ INM_MAX_COUNT) (i : ℕ) :
    Function.update t idx (t idx + 1) i < INM_MAX_COUNT := by
  rw [Function.update_same] at hmiss
  rw [Function.update_apply]
  split
  · have := ht idx
    omega
  · exact ht i

theorem updateTables_bound (N : ℕ) (oe ze oo zo : ℕ → ℕ) (even bit : Bool) (idx : ℕ)
    (hidx : idx < 1 <<< N)
    (hoe : ∀ i, oe i < INM_MAX_COUNT) (hze : ∀ i, ze i < INM_MAX_COUNT)
    (hoo : ∀ i, oo i < INM_MAX_COUNT) (hzo : ∀ i, zo i < INM_MAX_COUNT) :
    (∀ i, (updateTables N oe ze oo zo even bit idx).1 i < INM_MAX_COUNT) ∧
      (∀ i, (updateTables N oe ze oo zo even bit idx).2.1 i < INM_MAX_COUNT) ∧
      (∀ i, (updateTables N oe ze oo zo even bit idx).2.2.1 i < INM_MAX_COUNT) ∧
      (∀ i, (updateTables N oe ze oo zo even bit idx).2.2.2 i < INM_MAX_COUNT) := by
  unfold updateTables
  cases bit <;> cases even <;> simp only [Bool.false_eq_true, if_true, if_false] <;> split <;>
    exact ⟨fun i => by
        first
          | exact scaleTable_update_lt N idx _ (by assumption) hidx i
          | exact update_lt_of_ne idx _ (by assumption) (by assumption) i
          | exact scaleTable_lt N _ _ (by assumption) i
          | exact hoe i,
      fun i => by
        first
          | exact scaleTable_update_lt N idx _ (by assumption) hidx i
          | exact update_lt_of_ne idx _ (by assumption) (by assumption) i
          | exact scaleTable_lt N _ _ (by assumption) i
          | exact hze i,
      fun i => by
        first
          | exact scaleTable_update_lt N idx _ (by assumption) hidx i
          | exact update_lt_of_ne idx _ (by assumption) (by assumption) i
          | exact scaleTable_lt N _ _ (by assumption) i
          | exact hoo i,
      fun i => by
        first
          | exact scaleTable_update_lt N idx _ (by assumption) hidx i
          | exact update_lt_of_ne idx _ (by assumption) (by assumption) i
          | exact scaleTable_lt N _ _ (by assumption) i
          | exact hzo i⟩

theorem updateTables_eq_bump (N : ℕ) (oe ze oo zo : ℕ → ℕ) (even bit : Bool) (idx : ℕ) :
    updateTables N oe ze oo zo even bit idx =
      (if bumpedCell oe ze oo zo even bit idx = INM_MAX_COUNT
       then (scaleTable N (bumpTables oe ze oo zo even bit idx).1,
             scaleTable N (bumpTables oe ze oo zo even bit idx).2.1,
             scaleTable N (bumpTables oe ze oo zo even bit idx).2.2.1,
             scaleTable N (bumpTables oe ze oo zo even bit idx).2.2.2)
       else bumpTables oe ze oo zo even bit idx) := by
  unfold updateTables bumpTables bumpedCell
  cases bit <;> cases even <;>
    simp only [Bool.false_eq_true, if_true, if_false, Function.update_same]

/-! ### Step lemmas for single `inmHealthCheckAddBit` calls -/

theorem scaleEntropy_inmExpectedEntropyPerBit (s : InmState) :
    (scaleEntropy s).inmExpectedEntropyPerBit = s.inmExpectedEntropyPerBit := by
  unfold scaleEntropy; split <;> rfl

theorem scaleZeroOneCounts_inmExpectedEntropyPerBit (s : InmState) :
    (scaleZeroOneCounts s).inmExpectedEntropyPerBit = s.inmExpectedEntropyPerBit := by
  unfold scaleZeroOneCounts; split <;> rfl

theorem selectedBit_same (b L : Bool) : selectedBit b b L = b := by
  unfold selectedBit; split <;> rfl

theorem addBit_inmN (s : InmState) (e o v : Bool) (s' : InmState)
    (h : inmHealthCheckAddBit s e o v = some s') : s'.inmN = s.inmN := by
  obtain ⟨rfl, -⟩ := addBit_some_elim s e o v s' h
  rw [scaleZeroOneCounts_inmN, scaleEntropy_inmN, coreUpdate_inmN]

theorem addBit_inmPrevBits (s : InmState) (e o v : Bool) (s' : InmState)
    (h : inmHealthCheckAddBit s e o v = some s') : s'.inmPrevBits = nextPrevBits s := by
  obtain ⟨rfl, -⟩ := addBit_some_elim s e o v s' h
  rw [scaleZeroOneCounts_inmPrevBits, scaleEntropy_inmPrevBits, coreUpdate_inmPrevBits]

theorem addBit_inmNumBitsSampled (s : InmState) (e o v : Bool) (s' : InmState)
    (h : inmHealthCheckAddBit s e o v = some s') :
    s'.inmNumBitsSampled =
      if s.inmNumBitsSampled + 1 = INM_MIN_DATA then (s.inmNumBitsSampled + 1) / 2
      else s.inmNumBitsSampled + 1 := by
  obtain ⟨rfl, -⟩ := addBit_some_elim s e o v s' h
  rw [scaleZeroOneCounts_inmNumBitsSampled, scaleEntropy_inmNumBitsSampled,
    coreUpdate_inmNumBitsSampled]

theorem addBit_prob_bounds (s : InmState) (e o v : Bool) (s' : InmState)
    (h : inmHealthCheckAddBit s e o v = some s')
    (hp0 : 1 / 2 < s.inmCurrentProbability) (hp1 : s.inmCurrentProbability ≤ 1) :
    1 / 2 < s'.inmCurrentProbability ∧ s'.inmCurrentProbability ≤ 1 := by
  obtain ⟨rfl, -⟩ := addBit_some_elim s e o v s' h
  rw [scaleZeroOneCounts_inmCurrentProbability, scaleEntropy_inmCurrentProbability,
    coreUpdate_inmCurrentProbability]
  have hb := probAfterLookup_bounds s e o v (lt_trans (by norm_num) hp0) hp1
  exact ⟨creditLoop_gt_half _ _ _ _ _ _ hb.1, creditLoop_le_one _ _ _ _ _ _ hb.2⟩

theorem addBit_prob_unchanged (s : InmState) (e o v : Bool) (s' : InmState)
    (h : inmHealthCheckAddBit s e o v = some s')
    (hp : 1 / 2 < s.inmCurrentProbability) (hm : matchingCount s e o v = 0) :
    s'.inmCurrentProbability = s.inmCurrentProbability := by
  obtain ⟨rfl, -⟩ := addBit_some_elim s e o v s' h
  rw [scaleZeroOneCounts_inmCurrentProbability, scaleEntropy_inmCurrentProbability,
    coreUpdate_inmCurrentProbability, probAfterLookup_of_matchingCount_zero s e o v hm,
    creditLoop_of_gt_half _ _ _ _ _ _ (not_le.mpr hp)]

theorem addBit_level_mono (s : InmState) (e o v : Bool) (s' : InmState)
    (h : inmHealthCheckAddBit s e o v = some s') :
    s.inmEntropyLevel ≤ s'.inmEntropyLevel := by
  obtain ⟨rfl, -⟩ := addBit_some_elim s e o v s' h
  rw [scaleZeroOneCounts_inmEntropyLevel, scaleEntropy_inmEntropyLevel,
    coreUpdate_inmEntropyLevel]
  exact creditLoopGo_level_mono _ _ _ _ _ _ _

theorem addBit_level_cap (s : InmState) (e o v : Bool) (s' : InmState)
    (h : inmHealthCheckAddBit s e o v = some s')
    (hc : s.inmEntropyLevel ≤ INM_MAX_ENTROPY) : s'.inmEntropyLevel ≤ INM_MAX_ENTROPY := by
  obtain ⟨rfl, -⟩ := addBit_some_elim s e o v s' h
  rw [scaleZeroOneCounts_inmEntropyLevel, scaleEntropy_inmEntropyLevel,
    coreUpdate_inmEntropyLevel]
  exact creditLoopGo_level_cap _ _ _ _ _ _ _ hc

theorem addBit_level_ok (s : InmState) (e o v : Bool) (s' : InmState)
    (h : inmHealthCheckAddBit s e o v = some s')
    (hne : s'.inmEntropyLevel ≠ s.inmEntropyLevel) :
    ∃ m, s.inmNumBitsOfEntropy < m ∧
      okOf (s.inmTotalBits + 1) s.inmNumBitsSampled m s.inmExpectedEntropyPerBit = true := by
  obtain ⟨hs, -⟩ := addBit_some_elim s e o v s' h
  rw [hs, scaleZeroOneCounts_inmEntropyLevel, scaleEntropy_inmEntropyLevel,
    coreUpdate_inmEntropyLevel] at hne
  exact creditLoopGo_level_ok _ _ _ _ _ _ _ hne

theorem addBit_level_eq_fold (s : InmState) (e o v : Bool) (s' : InmState)
    (h : inmHealthCheckAddBit s e o v = some s') :
    s'.inmEntropyLevel =
      levelFold (s.inmTotalBits + 1) s.inmNumBitsSampled s.inmExpectedEntropyPerBit
        s.inmNumBitsOfEntropy
        ((coreUpdate s e o v).inmNumBitsOfEntropy - s.inmNumBitsOfEntropy)
        s.inmEntropyLevel := by
  obtain ⟨rfl, -⟩ := addBit_some_elim s e o v s' h
  rw [scaleZeroOneCounts_inmEntropyLevel, scaleEntropy_inmEntropyLevel,
    coreUpdate_inmEntropyLevel, coreUpdate_inmNumBitsOfEntropy]
  exact creditLoopGo_level_eq_fold _ _ _ _ _ _ _

/-! ### Runs of identical bits on one lane -/

theorem addBit_seq_counter (s : InmState) (b L : Bool) (s' : InmState)
    (h : inmHealthCheckAddBit s b b L = some s') (hn : 100 < s.inmNumBitsSampled) :
    (if b then s'.inmNumSequentialOnes else s'.inmNumSequentialZeros) =
      (if b then s.inmNumSequentialOnes else s.inmNumSequentialZeros) + 1 := by
  obtain ⟨rfl, -⟩ := addBit_some_elim s b b L s' h
  cases b <;>
    simp [scaleZeroOneCounts_inmNumSequentialOnes, scaleEntropy_inmNumSequentialOnes,
      coreUpdate_inmNumSequentialOnes, scaleZeroOneCounts_inmNumSequentialZeros,
      scaleEntropy_inmNumSequentialZeros, coreUpdate_inmNumSequentialZeros,
      runStats, selectedBit_same, INM_MIN_SAMPLE_SIZE, hn]

theorem runFails_false_of_le (s : InmState) (b : Bool)
    (hc : (if b then s.inmNumSequentialOnes else s.inmNumSequentialZeros) < INM_MAX_SEQUENCE) :
    runFails s.inmNumBitsSampled b s.inmNumSequentialOnes s.inmNumSequentialZeros = false := by
  unfold runFails
  cases b <;> simp_all [INM_MAX_SEQUENCE] <;> omega

theorem runReplicate (j : ℕ) :
    ∀ (s : InmState) (b L : Bool) (c₀ : ℕ),
      100 < s.inmNumBitsSampled →
      (if b then s.inmNumSequentialOnes else s.inmNumSequentialZeros) = c₀ →
      c₀ + j ≤ INM_MAX_SEQUENCE →
      ∃ t, runAddBits s (List.replicate j (b, b, L)) = some t ∧
        100 < t.inmNumBitsSampled ∧
        (if b then t.inmNumSequentialOnes else t.inmNumSequentialZeros) = c₀ + j := by
  induction j with
  | zero =>
    intro s b L c₀ h1 h2 h3
    exact ⟨s, rfl, h1, by simpa using h2⟩
  | succ n ih =>
    intro s b L c₀ h1 h2 h3
    have hf : runFails s.inmNumBitsSampled (selectedBit b b L)
        s.inmNumSequentialOnes s.inmNumSequentialZeros = false := by
      rw [selectedBit_same]
      apply runFails_false_of_le
      rw [h2]
      simp only [INM_MAX_SEQUENCE] at h3 ⊢
      omega
    have hstep := addBit_eq_some_of s b b L hf
    set t₁ := scaleZeroOneCounts (scaleEntropy (coreUpdate s b b L)) with ht₁
    have hn₁ : 100 < t₁.inmNumBitsSampled := by
      have := addBit_inmNumBitsSampled s b b L t₁ hstep
      have hD : INM_MIN_DATA = 80000 := rfl
      rw [this]
      split <;> omega
    have hc₁ : (if b then t₁.inmNumSequentialOnes else t₁.inmNumSequentialZeros) = c₀ + 1 := by
      rw [addBit_seq_counter s b L t₁ hstep h1, h2]
    obtain ⟨t, hrun, hn, hc⟩ := ih t₁ b L (c₀ + 1) hn₁ hc₁ (by omega)
    refine ⟨t, ?_, hn, by rw [hc]; omega⟩
    rw [List.replicate_succ, runAddBits_cons_some s t₁ b b L _ hstep]
    exact hrun

/-! ### The validity verdict as a proposition -/

theorem okOf_iff (tb nbs nboe : ℕ) (exp : ℚ) :
    okOf tb nbs nboe exp = true ↔
      INM_MIN_DATA ≤ tb ∧ exp / INM_ACCURACY ≤ (nboe : ℚ) / (nbs : ℚ) ∧
        (nboe : ℚ) / (nbs : ℚ) ≤ exp * INM_ACCURACY := by
  have hA : (0 : ℚ) < INM_ACCURACY := by norm_num [INM_ACCURACY]
  unfold okOf
  simp only [Bool.and_eq_true, decide_eq_true_eq]
  rw [div_le_iff₀ hA, div_le_iff₀ hA]
  tauto

theorem okToUseData_iff (s : InmState) :
    inmHealthCheckOkToUseData s = true ↔
      INM_MIN_DATA ≤ s.inmTotalBits ∧
        s.inmExpectedEntropyPerBit / INM_ACCURACY ≤ inmHealthCheckEstimateEntropyPerBit s ∧
        inmHealthCheckEstimateEntropyPerBit s ≤ s.inmExpectedEntropyPerBit * INM_ACCURACY :=
  okOf_iff s.inmTotalBits s.inmNumBitsSampled s.inmNumBitsOfEntropy s.inmExpectedEntropyPerBit

theorem okToUseData_false_of_lt (s : InmState) (h : s.inmTotalBits < INM_MIN_DATA) :
    inmHealthCheckOkToUseData s = false := by
  cases hok : inmHealthCheckOkToUseData s with
  | false => rfl
  | true => exact absurd ((okToUseData_iff s).mp hok).1 (by omega)

/-! ### The entropy-per-bit ratio across the sampled-bit scale-down -/

theorem scaleEntropy_estimate_of_even (s : InmState)
    (h80 : s.inmNumBitsSampled = INM_MIN_DATA) (h2 : 2 ∣ s.inmNumBitsOfEntropy) :
    inmHealthCheckEstimateEntropyPerBit (scaleEntropy s) =
      inmHealthCheckEstimateEntropyPerBit s := by
  obtain ⟨k, hk⟩ := h2
  unfold scaleEntropy
  rw [if_pos h80]
  unfold inmHealthCheckEstimateEntropyPerBit
  simp only
  rw [hk, h80]
  have hk2 : 2 * k / 2 = k := by omega
  rw [hk2]
  norm_num [INM_MIN_DATA]
  ring

/-! ### Preservation of the table bound -/

theorem addBit_tables_bound (s : InmState) (e o v : Bool) (s' : InmState)
    (h : inmHealthCheckAddBit s e o v = some s') (hN : 1 ≤ s.inmN)
    (hoe : ∀ i, s.inmOnesEven i < INM_MAX_COUNT) (hze : ∀ i, s.inmZerosEven i < INM_MAX_COUNT)
    (hoo : ∀ i, s.inmOnesOdd i < INM_MAX_COUNT) (hzo : ∀ i, s.inmZerosOdd i < INM_MAX_COUNT) :
    (∀ i, s'.inmOnesEven i < INM_MAX_COUNT) ∧ (∀ i, s'.inmZerosEven i < INM_MAX_COUNT) ∧
      (∀ i, s'.inmOnesOdd i < INM_MAX_COUNT) ∧ (∀ i, s'.inmZerosOdd i < INM_MAX_COUNT) := by
  obtain ⟨rfl, -⟩ := addBit_some_elim s e o v s' h
  simp only [scaleZeroOneCounts_inmOnesEven, scaleEntropy_inmOnesEven, coreUpdate_inmOnesEven,
    scaleZeroOneCounts_inmZerosEven, scaleEntropy_inmZerosEven, coreUpdate_inmZerosEven,
    scaleZeroOneCounts_inmOnesOdd, scaleEntropy_inmOnesOdd, coreUpdate_inmOnesOdd,
    scaleZeroOneCounts_inmZerosOdd, scaleEntropy_inmZerosOdd, coreUpdate_inmZerosOdd]
  have hidx : nextPrevBits s < 1 <<< s.inmN := by
    rw [Nat.one_shiftLeft]
    exact nextPrevBits_lt s hN
  exact updateTables_bound s.inmN _ _ _ _ v (selectedBit e o v) _ hidx hoe hze hoo hzo

/-! ### The state immediately after a valid start -/

theorem start_snd_of_valid (N : ℕ) (K e : ℚ) (d : Bool) (h : ¬(N < 1 ∨ 30 < N)) :
    (inmHealthCheckStart initialGlobals N K e d).2 =
      { inmN := N, inmPrevBits := 0, inmNumBitsSampled := 0,
        inmOnesEven := fun _ => 0, inmZerosEven := fun _ => 0,
        inmOnesOdd := fun _ => 0, inmZerosOdd := fun _ => 0,
        inmK := K, inmExpectedEntropyPerBit := e,
        inmNumBitsOfEntropy := 0, inmCurrentProbability := 1,
        inmTotalBits := 0, inmPrevBit := false, inmEntropyLevel := 0,
        inmNumSequentialZeros := 0, inmNumSequentialOnes := 0,
        inmTotalOnes := 0, inmTotalZeros := 0,
        inmEvenMisfires := 0, inmOddMisfires := 0,
        inmPrevEven := false, inmPrevOdd := false, inmDebug := d } := by
  unfold inmHealthCheckStart
  rw [if_neg h]
  rfl

/-! ## The claims -/

/-- C9: for every `N` outside `[1, 30]`, `inmHealthCheckStart` returns failure
and leaves the whole engine state unchanged: no tables are allocated and every
existing field keeps its value (the returned state is the argument state). -/
theorem C9_start_rejects_invalid (s : InmState) (N : ℕ) (K expected : ℚ) (debug : Bool)
    (h : N < 1 ∨ 30 < N) :
    inmHealthCheckStart s N K expected debug = (false, s) :=
  start_of_invalid s N K expected debug h

theorem C9_start_rejects_witness :
    inmHealthCheckStart initialGlobals 0 2 1 false = (false, initialGlobals) :=
  C9_start_rejects_invalid initialGlobals 0 2 1 false (Or.inl (by decide))

/-- C1: `inmHealthCheckOkToUseData` is true exactly when the unscaled 64-bit
total-bit counter is at least `INM_MIN_DATA = 80000` and the entropy-per-bit
estimate lies within the relative factor `INM_ACCURACY = 1.02` of the expected
entropy-per-bit stored at start, i.e. `expected/1.02 ≤ estimate ≤ expected*1.02`;
consequently, after any call sequence from start with fewer than 80000 ingested
bits it returns false. -/
theorem C1_okToUseData_characterization :
    (∀ s : InmState, inmHealthCheckOkToUseData s = true ↔
      INM_MIN_DATA ≤ s.inmTotalBits ∧
        s.inmExpectedEntropyPerBit / INM_ACCURACY ≤ inmHealthCheckEstimateEntropyPerBit s ∧
        inmHealthCheckEstimateEntropyPerBit s ≤ s.inmExpectedEntropyPerBit * INM_ACCURACY) ∧
    (∀ (N : ℕ) (K expected : ℚ) (debug : Bool) (calls : List (Bool × Bool × Bool))
      (s' : InmState),
      calls.length < INM_MIN_DATA → runFromStart N K expected debug calls = some s' →
      inmHealthCheckOkToUseData s' = false) := by
  constructor
  · exact okToUseData_iff
  · intro N K expected debug calls s' hlen hrun
    have hval := runFromStart_some_valid N K expected debug calls s' hrun
    rw [runFromStart_eq_of_valid N K expected debug calls hval] at hrun
    have htb := runAddBits_inmTotalBits calls _ s' hrun
    rw [start_snd_of_valid N K expected debug hval] at htb
    simp only at htb
    apply okToUseData_false_of_lt
    omega

theorem C1_okToUseData_witness :
    List.length ([] : List (Bool × Bool × Bool)) < INM_MIN_DATA ∧
      inmHealthCheckOkToUseData ((inmHealthCheckStart initialGlobals 1 2 1 false).2) = false :=
  ⟨by decide, C1_okToUseData_characterization.2 1 2 1 false [] _ (by decide) rfl⟩

/-- C10: the total-bit counter is incremented by exactly one on every
(non-fatal) `inmHealthCheckAddBit` call and is never halved by any scale-down,
so after a run it equals its initial value plus the number of calls; hence once
80000 calls have been made from start, the sample-floor conjunct of
`inmHealthCheckOkToUseData` (`INM_MIN_DATA ≤ inmTotalBits`) holds in every
subsequent state. -/
theorem C10_totalBits_monotone :
    (∀ (s : InmState) (e o v : Bool) (s' : InmState),
      inmHealthCheckAddBit s e o v = some s' → s'.inmTotalBits = s.inmTotalBits + 1) ∧
    (∀ (calls : List (Bool × Bool × Bool)) (s s' : InmState),
      runAddBits s calls = some s' → s'.inmTotalBits = s.inmTotalBits + calls.length) ∧
    (∀ (N : ℕ) (K expected : ℚ) (debug : Bool)
      (calls more : List (Bool × Bool × Bool)) (s' s'' : InmState),
      runFromStart N K expected debug calls = some s' → INM_MIN_DATA ≤ calls.length →
      runAddBits s' more = some s'' → INM_MIN_DATA ≤ s''.inmTotalBits) := by
  refine ⟨addBit_inmTotalBits, runAddBits_inmTotalBits, ?_⟩
  intro N K expected debug calls more s' s'' h1 hlen h2
  have hval := runFromStart_some_valid N K expected debug calls s' h1
  rw [runFromStart_eq_of_valid N K expected debug calls hval] at h1
  have ht1 := runAddBits_inmTotalBits calls _ s' h1
  rw [start_snd_of_valid N K expected debug hval] at ht1
  simp only at ht1
  have ht2 := runAddBits_inmTotalBits more s' s'' h2
  omega

theorem C10_totalBits_witness :
    sampleStateC.inmTotalBits =
      sampleStateC.inmTotalBits + List.length ([] : List (Bool × Bool × Bool)) :=
  C10_totalBits_monotone.2.1 [] sampleStateC sampleStateC rfl

/-- C8: in every state with at least one bit sampled,
`inmHealthCheckEstimateEntropyPerBit` is the entropy-unit count divided by the
sampled-bit count, and `inmHealthCheckEstimateK` is 2 raised to exactly that
same quotient, so `estimateK = 2 ^ estimateEntropyPerBit`. -/
theorem C8_estimateK_relation (s : InmState) (h : 1 ≤ s.inmNumBitsSampled) :
    inmHealthCheckEstimateEntropyPerBit s =
      (s.inmNumBitsOfEntropy : ℚ) / (s.inmNumBitsSampled : ℚ) ∧
    inmHealthCheckEstimateK s =
      (2 : ℝ) ^ ((inmHealthCheckEstimateEntropyPerBit s : ℚ) : ℝ) :=
  ⟨rfl, rfl⟩

theorem C8_estimateK_witness :
    1 ≤ sampleStateC.inmNumBitsSampled ∧
      inmHealthCheckEstimateK sampleStateC =
        (2 : ℝ) ^ ((inmHealthCheckEstimateEntropyPerBit sampleStateC : ℚ) : ℝ) :=
  ⟨by decide, (C8_estimateK_relation sampleStateC (by decide)).2⟩

/-- C3: the running probability is 1 immediately after a successful start;
after every `inmHealthCheckAddBit` call of any run from start it lies in
(1/2, 1]; and when the matching context-cell count is zero, the call leaves the
probability unchanged (in particular it never becomes 0). -/
theorem C3_probability_invariant :
    (∀ (s : InmState) (N : ℕ) (K expected : ℚ) (debug : Bool),
      (inmHealthCheckStart s N K expected debug).1 = true →
      ((inmHealthCheckStart s N K expected debug).2).inmCurrentProbability = 1) ∧
    (∀ (N : ℕ) (K expected : ℚ) (debug : Bool) (calls : List (Bool × Bool × Bool))
      (s' : InmState),
      runFromStart N K expected debug calls = some s' →
      1 / 2 < s'.inmCurrentProbability ∧ s'.inmCurrentProbability ≤ 1) ∧
    (∀ (s : InmState) (e o v : Bool) (s' : InmState),
      inmHealthCheckAddBit s e o v = some s' → 1 / 2 < s.inmCurrentProbability →
      matchingCount s e o v = 0 → s'.inmCurrentProbability = s.inmCurrentProbability) := by
  refine ⟨?_, ?_, ?_⟩
  · intro s N K expected debug h
    by_cases hv : N < 1 ∨ 30 < N
    · rw [start_of_invalid s N K expected debug hv] at h
      exact absurd h (by simp)
    · unfold inmHealthCheckStart
      rw [if_neg hv]
  · intro N K expected debug calls s' hrun
    have hval := runFromStart_some_valid N K expected debug calls s' hrun
    rw [runFromStart_eq_of_valid N K expected debug calls hval] at hrun
    refine @runAddBits_inv
      (fun t => 1 / 2 < t.inmCurrentProbability ∧ t.inmCurrentProbability ≤ 1)
      (fun s e o v s' hP h => addBit_prob_bounds s e o v s' h hP.1 hP.2)
      calls _ s' ?_ hrun
    rw [start_snd_of_valid N K expected debug hval]
    constructor <;> norm_num
  · exact addBit_prob_unchanged

theorem C3_probability_witness :
    ((inmHealthCheckStart initialGlobals 1 2 1 false).2).inmCurrentProbability = 1 ∧
      (1 / 2 < ((inmHealthCheckStart initialGlobals 1 2 1 false).2).inmCurrentProbability ∧
        ((inmHealthCheckStart initialGlobals 1 2 1 false).2).inmCurrentProbability ≤ 1) :=
  ⟨C3_probability_invariant.1 initialGlobals 1 2 1 false rfl,
   C3_probability_invariant.2.1 1 2 1 false [] _ rfl⟩

/-- C4: over every run from start the externally visible entropy level never
exceeds `INM_MAX_ENTROPY = 1600`; each `inmHealthCheckAddBit` call can only
increase it; the level output of the entropy-credit loop, and hence of every
call, is exactly the ok-gated fold `levelFold` over the units the call
credits, so the level is incremented only by one per credited entropy unit and
only at a unit at which `inmHealthCheckOkToUseData` holds at the moment of the
increment (total bits already incremented, sampled bits not yet, the
entropy-unit count at its mid-loop value) with the level below the cap; and
`inmClearEntropyLevel` resets the level so `inmGetEntropyLevel` then
returns 0. -/
theorem C4_entropy_level_invariant :
    (∀ (N : ℕ) (K expected : ℚ) (debug : Bool) (calls : List (Bool × Bool × Bool))
      (s' : InmState),
      runFromStart N K expected debug calls = some s' →
      s'.inmEntropyLevel ≤ INM_MAX_ENTROPY) ∧
    (∀ (s : InmState) (e o v : Bool) (s' : InmState),
      inmHealthCheckAddBit s e o v = some s' → s.inmEntropyLevel ≤ s'.inmEntropyLevel) ∧
    (∀ (tb nbs : ℕ) (expected : ℚ) (fuel : ℕ) (p : ℚ) (nboe level : ℕ),
      (creditLoopGo tb nbs expected fuel p nboe level).2.2 =
        levelFold tb nbs expected nboe
          ((creditLoopGo tb nbs expected fuel p nboe level).2.1 - nboe) level) ∧
    (∀ (s : InmState) (e o v : Bool) (s' : InmState),
      inmHealthCheckAddBit s e o v = some s' →
      s'.inmEntropyLevel =
        levelFold (s.inmTotalBits + 1) s.inmNumBitsSampled s.inmExpectedEntropyPerBit
          s.inmNumBitsOfEntropy
          ((coreUpdate s e o v).inmNumBitsOfEntropy - s.inmNumBitsOfEntropy)
          s.inmEntropyLevel) ∧
    (∀ (tb nbs : ℕ) (expected : ℚ) (fuel : ℕ) (p : ℚ) (nboe level : ℕ),
      (creditLoopGo tb nbs expected fuel p nboe level).2.2 + nboe ≤
        level + (creditLoopGo tb nbs expected fuel p nboe level).2.1) ∧
    (∀ s : InmState, inmGetEntropyLevel (inmClearEntropyLevel s) = 0) := by
  refine ⟨?_, addBit_level_mono, creditLoopGo_level_eq_fold, addBit_level_eq_fold,
    creditLoopGo_level_nboe, fun s => rfl⟩
  intro N K expected debug calls s' hrun
  have hval := runFromStart_some_valid N K expected debug calls s' hrun
  rw [runFromStart_eq_of_valid N K expected debug calls hval] at hrun
  refine @runAddBits_inv (fun t => t.inmEntropyLevel ≤ INM_MAX_ENTROPY)
    (fun s e o v s' hP h => addBit_level_cap s e o v s' h hP) calls _ s' ?_ hrun
  rw [start_snd_of_valid N K expected debug hval]
  simp [INM_MAX_ENTROPY]

theorem C4_entropy_level_witness :
    ((inmHealthCheckStart initialGlobals 1 2 1 false).2).inmEntropyLevel ≤ INM_MAX_ENTROPY ∧
      inmGetEntropyLevel (inmClearEntropyLevel sampleStateC) = 0 :=
  ⟨C4_entropy_level_invariant.1 1 2 1 false [] _ rfl,
   C4_entropy_level_invariant.2.2.2.2.2 sampleStateC⟩

/-- C5: `scaleStats` replaces every in-range cell by its floor-halved value (so
zero/one ratios change only by the rounding of integer division by 2); the
table update halves all four tables in the same call exactly when the
incremented cell reaches `INM_MAX_COUNT = 2^14`; and over every run from start,
every cell of all four tables stays strictly below `INM_MAX_COUNT` at the end
of every call. -/
theorem C5_table_scaling :
    (∀ (N : ℕ) (t : ℕ → ℕ) (i : ℕ), i < 2 ^ N → scaleTable N t i = t i / 2) ∧
    (∀ (N : ℕ) (onesEven zerosEven onesOdd zerosOdd : ℕ → ℕ) (even bit : Bool) (idx : ℕ),
      updateTables N onesEven zerosEven onesOdd zerosOdd even bit idx =
        (if bumpedCell onesEven zerosEven onesOdd zerosOdd even bit idx = INM_MAX_COUNT
         then (scaleTable N (bumpTables onesEven zerosEven onesOdd zerosOdd even bit idx).1,
               scaleTable N (bumpTables onesEven zerosEven onesOdd zerosOdd even bit idx).2.1,
               scaleTable N (bumpTables onesEven zerosEven onesOdd zerosOdd even bit idx).2.2.1,
               scaleTable N (bumpTables onesEven zerosEven onesOdd zerosOdd even bit idx).2.2.2)
         else bumpTables onesEven zerosEven onesOdd zerosOdd even bit idx)) ∧
    (∀ (N : ℕ) (K expected : ℚ) (debug : Bool) (calls : List (Bool × Bool × Bool))
      (s' : InmState),
      runFromStart N K expected debug calls = some s' →
      (∀ i, s'.inmOnesEven i < INM_MAX_COUNT) ∧ (∀ i, s'.inmZerosEven i < INM_MAX_COUNT) ∧
        (∀ i, s'.inmOnesOdd i < INM_MAX_COUNT) ∧ (∀ i, s'.inmZerosOdd i < INM_MAX_COUNT)) := by
  refine ⟨?_, updateTables_eq_bump, ?_⟩
  · intro N t i hi
    unfold scaleTable
    rw [Nat.one_shiftLeft, if_pos hi]
  · intro N K expected debug calls s' hrun
    have hval := runFromStart_some_valid N K expected debug calls s' hrun
    rw [runFromStart_eq_of_valid N K expected debug calls hval] at hrun
    have key := @runAddBits_inv
      (fun t => 1 ≤ t.inmN ∧ (∀ i, t.inmOnesEven i < INM_MAX_COUNT) ∧
        (∀ i, t.inmZerosEven i < INM_MAX_COUNT) ∧ (∀ i, t.inmOnesOdd i < INM_MAX_COUNT) ∧
        (∀ i, t.inmZerosOdd i < INM_MAX_COUNT))
      (fun s e o v s' hP h => by
        obtain ⟨hN, hoe, hze, hoo, hzo⟩ := hP
        have hb := addBit_tables_bound s e o v s' h hN hoe hze hoo hzo
        refine ⟨?_, hb.1, hb.2.1, hb.2.2.1, hb.2.2.2⟩
        rw [addBit_inmN s e o v s' h]
        exact hN)
      calls _ s' (by
        rw [start_snd_of_valid N K expected debug hval]
        refine ⟨by show 1 ≤ N; omega, ?_, ?_, ?_, ?_⟩ <;>
          exact fun i => by show (0 : ℕ) < INM_MAX_COUNT; decide) hrun
    exact ⟨key.2.1, key.2.2.1, key.2.2.2.1, key.2.2.2.2⟩

theorem C5_table_scaling_witness :
    (0 : ℕ) < 2 ^ 1 ∧
      scaleTable 1 ((inmHealthCheckStart initialGlobals 1 2 1 false).2).inmOnesEven 0 =
        ((inmHealthCheckStart initialGlobals 1 2 1 false).2).inmOnesEven 0 / 2 ∧
      ((inmHealthCheckStart initialGlobals 1 2 1 false).2).inmOnesEven 0 < INM_MAX_COUNT :=
  ⟨by decide,
   C5_table_scaling.1 1 ((inmHealthCheckStart initialGlobals 1 2 1 false).2).inmOnesEven 0
     (by decide),
   (C5_table_scaling.2.2 1 2 1 false [] _ rfl).1 0⟩

/-- C7: for every valid configuration width the context-window value used to
index the occurrence tables is always strictly below `2^N`: the update masks
the shared shift register to `N` bits, and every state reached from a valid
start keeps its window below the table size (the width is the configured `N`,
which a successful start confines to `[1, 30]`). -/
theorem C7_context_window_bound :
    (∀ s : InmState, 1 ≤ s.inmN → nextPrevBits s < 2 ^ s.inmN) ∧
    (∀ (N : ℕ) (K expected : ℚ) (debug : Bool) (calls : List (Bool × Bool × Bool))
      (s' : InmState),
      runFromStart N K expected debug calls = some s' →
      s'.inmPrevBits < 2 ^ s'.inmN ∧ s'.inmN = N ∧ 1 ≤ N ∧ N ≤ 30) := by
  refine ⟨nextPrevBits_lt, ?_⟩
  intro N K expected debug calls s' hrun
  have hval := runFromStart_some_valid N K expected debug calls s' hrun
  rw [runFromStart_eq_of_valid N K expected debug calls hval] at hrun
  have key := @runAddBits_inv
    (fun t => 1 ≤ t.inmN ∧ t.inmN = N ∧ t.inmPrevBits < 2 ^ t.inmN)
    (fun s e o v s' hP h => by
      have hN := addBit_inmN s e o v s' h
      refine ⟨hN ▸ hP.1, hN ▸ hP.2.1, ?_⟩
      rw [addBit_inmPrevBits s e o v s' h, hN]
      exact nextPrevBits_lt s hP.1)
    calls _ s' (by
      rw [start_snd_of_valid N K expected debug hval]
      exact ⟨by show 1 ≤ N; omega, rfl, by show (0 : ℕ) < 2 ^ N; positivity⟩) hrun
  exact ⟨key.2.2, key.2.1, by omega, by omega⟩

theorem C7_context_window_witness :
    1 ≤ sampleStateC.inmN ∧ nextPrevBits sampleStateC < 2 ^ sampleStateC.inmN ∧
      ((inmHealthCheckStart initialGlobals 1 2 1 false).2).inmPrevBits <
        2 ^ ((inmHealthCheckStart initialGlobals 1 2 1 false).2).inmN :=
  ⟨by decide, C7_context_window_bound.1 sampleStateC (by decide),
   (C7_context_window_bound.2 1 2 1 false [] _ rfl).1⟩

theorem runFails_true_of (s : InmState) (b : Bool) (hn : 100 < s.inmNumBitsSampled)
    (hc : INM_MAX_SEQUENCE ≤ (if b then s.inmNumSequentialOnes else s.inmNumSequentialZeros)) :
    runFails s.inmNumBitsSampled b s.inmNumSequentialOnes s.inmNumSequentialZeros = true := by
  unfold runFails
  cases b <;> simp_all [INM_MIN_SAMPLE_SIZE, INM_MAX_SEQUENCE] <;> omega

/-- C2 (amended): a call is fatal exactly when more than 100 bits have been
sampled and the sequential counter for the observed bit already stands at
`INM_MAX_SEQUENCE = 20` (so the incremented run length exceeds 20); and from
any state past that warm-up boundary whose counter for bit `b` is zero, a run
of consecutive calls on one lane ingesting `b` succeeds for the first 20 calls
and signals the fatal anomaly exactly on the 21st; every call not meeting the
fatal condition returns success. -/
theorem C2_anomaly_characterization :
    (∀ (s : InmState) (e o v : Bool),
      inmHealthCheckAddBit s e o v = none ↔
        INM_MIN_SAMPLE_SIZE < s.inmNumBitsSampled ∧
          ((selectedBit e o v = true ∧ INM_MAX_SEQUENCE ≤ s.inmNumSequentialOnes) ∨
            (selectedBit e o v = false ∧ INM_MAX_SEQUENCE ≤ s.inmNumSequentialZeros))) ∧
    (∀ (s : InmState) (b L : Bool) (j : ℕ),
      100 < s.inmNumBitsSampled →
      (if b then s.inmNumSequentialOnes else s.inmNumSequentialZeros) = 0 →
      (j ≤ INM_MAX_SEQUENCE → runAddBits s (List.replicate j (b, b, L)) ≠ none) ∧
        runAddBits s (List.replicate (INM_MAX_SEQUENCE + 1) (b, b, L)) = none) := by
  constructor
  · intro s e o v
    rw [addBit_eq_none_iff]
    unfold runFails
    cases hb : selectedBit e o v <;>
      simp [hb, INM_MAX_SEQUENCE, INM_MIN_SAMPLE_SIZE] <;> omega
  · intro s b L j hn hc
    constructor
    · intro hj hnone
      obtain ⟨t, hrun, -, -⟩ := runReplicate j s b L 0 hn hc (by omega)
      rw [hrun] at hnone
      exact absurd hnone (by simp)
    · obtain ⟨t, hrun, hnt, hct⟩ := runReplicate INM_MAX_SEQUENCE s b L 0 hn hc (by omega)
      have hfail : inmHealthCheckAddBit t b b L = none := by
        rw [addBit_eq_none_iff, selectedBit_same]
        exact runFails_true_of t b hnt (by rw [hct]; omega)
      rw [List.replicate_succ', runAddBits_append, hrun]
      simp only [Option.some_bind]
      exact runAddBits_cons_none t b b L [] hfail

theorem C2_anomaly_witness :
    runAddBits sampleStateC (List.replicate (INM_MAX_SEQUENCE + 1) (true, true, true)) = none ∧
      runAddBits sampleStateC (List.replicate 5 (true, true, true)) ≠ none :=
  ⟨(C2_anomaly_characterization.2 sampleStateC true true 5 (by decide) rfl).2,
   (C2_anomaly_characterization.2 sampleStateC true true 5 (by decide) rfl).1 (by decide)⟩

set_option maxRecDepth 40000 in
/-- C2 counterexample to the claim as stated: from a fresh start, 100 calls
reach the claim's warm-up boundary (100 bits sampled, both run counters zero),
yet a subsequent run of 21 consecutive identical even-lane bits triggers no
fatal anomaly on its 21st call (nor earlier): the guard only runs once
strictly more than 100 bits have been sampled, so the whole 121-call sequence
succeeds. -/
theorem C2_warmup_counterexample :
    (runFromStart 1 2 1 false cexCalls100).map statView = some (100, 0, 0) ∧
      (runFromStart 1 2 1 false cexCalls).isSome = true := by
  have hval : ¬((1 : ℕ) < 1 ∨ 30 < 1) := by decide
  constructor
  · rw [runFromStart_eq_of_valid 1 2 1 false cexCalls100 hval, runAddBits_statView]
    decide
  · rw [runFromStart_eq_of_valid 1 2 1 false cexCalls hval]
    have h1 : ((runAddBits ((inmHealthCheckStart initialGlobals 1 2 1 false).2) cexCalls).map
          statView).isSome =
        (runAddBits ((inmHealthCheckStart initialGlobals 1 2 1 false).2) cexCalls).isSome :=
      Option.isSome_map'
    rw [← h1, runAddBits_statView]
    decide

/-- C6 (amended): when the sampled-bit counter reaches `INM_MIN_DATA = 80000`
at the end of an `inmHealthCheckAddBit` call (the counter is incremented by
exactly one beforehand), the entropy-unit counter, the sampled-bit counter and
both lane misfire counters are all halved together by integer division in that
same call, preserving the entropy-per-bit ratio exactly whenever the
entropy-unit counter is even (and only up to integer rounding otherwise); at
the same point, if the larger of total-zeros/total-ones equals `INM_MIN_DATA`,
both are halved together. -/
theorem C6_scaledown_characterization :
    (∀ s : InmState, s.inmNumBitsSampled = INM_MIN_DATA →
      scaleEntropy s =
        { s with
          inmNumBitsOfEntropy := s.inmNumBitsOfEntropy / 2,
          inmNumBitsSampled := s.inmNumBitsSampled / 2,
          inmEvenMisfires := s.inmEvenMisfires / 2,
          inmOddMisfires := s.inmOddMisfires / 2 }) ∧
    (∀ s : InmState, s.inmNumBitsSampled ≠ INM_MIN_DATA → scaleEntropy s = s) ∧
    (∀ s : InmState, s.inmNumBitsSampled = INM_MIN_DATA → 2 ∣ s.inmNumBitsOfEntropy →
      inmHealthCheckEstimateEntropyPerBit (scaleEntropy s) =
        inmHealthCheckEstimateEntropyPerBit s) ∧
    (∀ s : InmState, max s.inmTotalZeros s.inmTotalOnes = INM_MIN_DATA →
      scaleZeroOneCounts s =
        { s with
          inmTotalZeros := s.inmTotalZeros / 2,
          inmTotalOnes := s.inmTotalOnes / 2 }) ∧
    (∀ (s : InmState) (e o v : Bool) (s' : InmState),
      inmHealthCheckAddBit s e o v = some s' →
      s' = scaleZeroOneCounts (scaleEntropy (coreUpdate s e o v)) ∧
        (coreUpdate s e o v).inmNumBitsSampled = s.inmNumBitsSampled + 1) := by
  refine ⟨?_, ?_, scaleEntropy_estimate_of_even, ?_, ?_⟩
  · intro s h
    unfold scaleEntropy
    rw [if_pos h]
  · intro s h
    unfold scaleEntropy
    rw [if_neg h]
  · intro s h
    unfold scaleZeroOneCounts
    rw [if_pos h]
  · intro s e o v s' h
    exact ⟨(addBit_some_elim s e o v s' h).1, coreUpdate_inmNumBitsSampled s e o v⟩

theorem C6_scaledown_witness :
    scaleEntropy sampleStateA =
      { sampleStateA with
        inmNumBitsOfEntropy := sampleStateA.inmNumBitsOfEntropy / 2,
        inmNumBitsSampled := sampleStateA.inmNumBitsSampled / 2,
        inmEvenMisfires := sampleStateA.inmEvenMisfires / 2,
        inmOddMisfires := sampleStateA.inmOddMisfires / 2 } :=
  C6_scaledown_characterization.1 sampleStateA rfl

/-- C6 counterexample to the claim as stated: in the concrete state
`sampleStateB` one call away from the ceiling, with one entropy unit credited
over 79999 sampled bits, the call that brings the sampled-bit counter to 80000
halves the counters to 0 entropy units over 40000 bits, so the entropy-per-bit
ratio 1/80000 is not preserved (it becomes 0): the halving rounds the odd
entropy-unit counter down. -/
theorem C6_ratio_counterexample :
    sampleStateB.inmNumBitsOfEntropy = 1 ∧
      sampleStateB.inmNumBitsSampled + 1 = INM_MIN_DATA ∧
      (inmHealthCheckAddBit sampleStateB false false true).map entView = some (0, 40000) ∧
      ¬((0 : ℚ) / 40000 = (1 : ℚ) / (INM_MIN_DATA : ℚ)) := by
  refine ⟨rfl, rfl, ?_, by norm_num [INM_MIN_DATA]⟩
  have hf : runFails sampleStateB.inmNumBitsSampled (selectedBit false false true)
      sampleStateB.inmNumSequentialOnes sampleStateB.inmNumSequentialZeros = false := by
    decide
  rw [addBit_eq_some_of sampleStateB false false true hf]
  simp only [Option.map_some']
  refine congrArg some ?_
  unfold entView
  have hp0 : probAfterLookup sampleStateB false false true = 1 := rfl
  have hcl : creditLoop (sampleStateB.inmTotalBits + 1) sampleStateB.inmNumBitsSampled
      sampleStateB.inmExpectedEntropyPerBit (probAfterLookup sampleStateB false false true)
      sampleStateB.inmNumBitsOfEntropy sampleStateB.inmEntropyLevel =
      (1, sampleStateB.inmNumBitsOfEntropy, sampleStateB.inmEntropyLevel) := by
    rw [hp0]
    exact creditLoop_of_gt_half _ _ _ _ _ _ (by norm_num)
  refine Prod.ext ?_ ?_
  · show (scaleZeroOneCounts (scaleEntropy (coreUpdate sampleStateB false false true))).inmNumBitsOfEntropy = 0
    rw [scaleZeroOneCounts_inmNumBitsOfEntropy, scaleEntropy_inmNumBitsOfEntropy,
      coreUpdate_inmNumBitsOfEntropy, coreUpdate_inmNumBitsSampled, hcl]
    rw [if_pos (by decide : sampleStateB.inmNumBitsSampled + 1 = INM_MIN_DATA)]
    rfl
  · show (scaleZeroOneCounts (scaleEntropy (coreUpdate sampleStateB false false true))).inmNumBitsSampled = 40000
    rw [scaleZeroOneCounts_inmNumBitsSampled, scaleEntropy_inmNumBitsSampled,
      coreUpdate_inmNumBitsSampled]
    rw [if_pos (by decide : sampleStateB.inmNumBitsSampled + 1 = INM_MIN_DATA)]
    rfl
